import Mathlib

/-!
The kernel `graphs_floyd_warshall` of molmod (ext/lib/graphs.c).

A shallow embedding of the all-pairs shortest-path kernel of MolModExt and a
verification of its contract.

* The buffer `int* dm` is a `List Int`; every read and write goes through an
  `Option`-returning accessor, so an out-of-bounds access makes the whole run
  return `none`.
* The three counting loops are instances of `forLoop`.
* The C addition `d_ik+d_kj` is a parameter `add` of the loops; with unbounded
  integer addition and index arithmetic this is `graphs_floyd_warshall`.
* `graphs_floyd_warshall32` is the same code on 32-bit `int`s: the sum `d_ik+d_kj`
  and the index expressions `i*n+k`, `k*n+j`, `i*n+j`, `j*n+i` wrap around, and a
  negative index is outside the buffer.
-/

namespace Molmod

/-! ## The buffer-level embedding of the C code -/

/-- Read `dm[idx]`; `none` when `idx` is outside the buffer. -/
def readAt (dm : List Int) (idx : Nat) : Option Int := dm[idx]?

/-- Write `dm[idx] = v`; `none` when `idx` is outside the buffer. -/
def writeAt (dm : List Int) (idx : Nat) (v : Int) : Option (List Int) :=
  if idx < dm.length then some (dm.set idx v) else none

/-- The loop `for (c = 0; c < bound; c++) body(c)` over a state that may fail:
`forLoop body bound s` runs `body 0`, ..., `body (bound - 1)` in this order. -/
def forLoop {σ : Type} (body : Nat → σ → Option σ) : Nat → σ → Option σ
  | 0, s => some s
  | b + 1, s => (forLoop body b s).bind (body b)

/-- Lines 30-39 of graphs.c: the body of the innermost loop for pivot `k` and the
pair `(i, j)`. -/
def relax (add : Int → Int → Int) (n k j i : Nat) (dm : List Int) : Option (List Int) :=
  (readAt dm (i * n + k)).bind fun d_ik =>
  (readAt dm (k * n + j)).bind fun d_kj =>
  if 0 < d_ik ∧ 0 < d_kj then
    (readAt dm (i * n + j)).bind fun d_orig =>
    let d_new := add d_ik d_kj
    if d_new < d_orig ∨ d_orig = 0 then
      (writeAt dm (i * n + j) d_new).bind fun dm1 =>
      writeAt dm1 (j * n + i) d_new
    else some dm
  else some dm

/-- Lines 28-40: `for (i=0; i<j; i++) { if (i==k) continue; ... }`. -/
def loop_i (add : Int → Int → Int) (n k j : Nat) (dm : List Int) : Option (List Int) :=
  forLoop (fun i dm => if i = k then some dm else relax add n k j i dm) j dm

/-- Lines 26-41: `for (j=0; j<n; j++) { if (j==k) continue; ... }`, one pass for
the pivot `k`. -/
def loop_j (add : Int → Int → Int) (n k : Nat) (dm : List Int) : Option (List Int) :=
  forLoop (fun j dm => if j = k then some dm else loop_i add n k j dm) n dm

/-- Lines 25-42: `for (k=0; k<n; k++) ...`. -/
def loop_k (add : Int → Int → Int) (n : Nat) (dm : List Int) : Option (List Int) :=
  forLoop (fun k dm => loop_j add n k dm) n dm

/-- The function `graphs_floyd_warshall(int n, int* dm)` with the integers taken as
unbounded. The loop counters start at 0 and count up to the `int n`, so for
`n <= 0` no loop body runs. -/
def graphs_floyd_warshall (n : Int) (dm : List Int) : Option (List Int) :=
  loop_k (fun a b => a + b) n.toNat dm

/-- Two's-complement wrap of an integer into the range of a 32-bit `int`. -/
def wrap32 (x : Int) : Int := (x + 2 ^ 31) % 2 ^ 32 - 2 ^ 31

/-- The C expression `a*n+b` on 32-bit `int`s: the product and the sum wrap
around. -/
def idx32 (a n b : Int) : Int := wrap32 (wrap32 (a * n) + b)

/-- Read `dm[idx]` for an `int` index; `none` when `idx` is negative or beyond the
buffer. -/
def readInt (dm : List Int) (idx : Int) : Option Int :=
  if 0 ≤ idx then dm[idx.toNat]? else none

/-- Write `dm[idx] = v` for an `int` index; `none` when `idx` is negative or beyond
the buffer. -/
def writeInt (dm : List Int) (idx : Int) (v : Int) : Option (List Int) :=
  if 0 ≤ idx ∧ idx.toNat < dm.length then some (dm.set idx.toNat v) else none

/-- Lines 30-39 of graphs.c on 32-bit `int`s: the four indices and the sum
`d_ik+d_kj` are computed with wrap-around. -/
def relax32 (n : Int) (k j i : Nat) (dm : List Int) : Option (List Int) :=
  (readInt dm (idx32 i n k)).bind fun d_ik =>
  (readInt dm (idx32 k n j)).bind fun d_kj =>
  if 0 < d_ik ∧ 0 < d_kj then
    (readInt dm (idx32 i n j)).bind fun d_orig =>
    let d_new := wrap32 (d_ik + d_kj)
    if d_new < d_orig ∨ d_orig = 0 then
      (writeInt dm (idx32 i n j) d_new).bind fun dm1 =>
      writeInt dm1 (idx32 j n i) d_new
    else some dm
  else some dm

/-- Lines 28-40 on 32-bit `int`s. -/
def loop_i32 (n : Int) (k j : Nat) (dm : List Int) : Option (List Int) :=
  forLoop (fun i dm => if i = k then some dm else relax32 n k j i dm) j dm

/-- Lines 26-41 on 32-bit `int`s. -/
def loop_j32 (n : Int) (k : Nat) (dm : List Int) : Option (List Int) :=
  forLoop (fun j dm => if j = k then some dm else loop_i32 n k j dm) n.toNat dm

/-- The function `graphs_floyd_warshall(int n, int* dm)` on 32-bit `int`s: the loops
of lines 25-42 with the sum `d_ik+d_kj` and the index arithmetic wrapping around. The
counters `k`, `j`, `i` stay below `n` and do not overflow. -/
def graphs_floyd_warshall32 (n : Int) (dm : List Int) : Option (List Int) :=
  forLoop (fun k dm => loop_j32 n k dm) n.toNat dm

/-- The entry `(i, j)` of a flattened `n × n` matrix, `dm[i*n+j]`. -/
def entry (n : Nat) (dm : List Int) (i j : Nat) : Option Int := dm[i * n + j]?

/-! ## The matrix-level view of the same computation -/

/-- A matrix as a function of row and column. -/
abbrev Mat := Nat → Nat → Int

/-- The matrix `a` with the entry `(i, j)` replaced by `v`. -/
def setM (a : Mat) (i j : Nat) (v : Int) : Mat :=
  fun x y => if x = i ∧ y = j then v else a x y

/-- The body of the innermost loop (lines 30-39) on a matrix. -/
def relaxM (add : Int → Int → Int) (k j i : Nat) (a : Mat) : Mat :=
  if 0 < a i k ∧ 0 < a k j then
    if add (a i k) (a k j) < a i j ∨ a i j = 0 then
      setM (setM a i j (add (a i k) (a k j))) j i (add (a i k) (a k j))
    else a
  else a

/-- The counting loop over a state that cannot fail. -/
def iter {τ : Type} (body : Nat → τ → τ) : Nat → τ → τ
  | 0, t => t
  | b + 1, t => body b (iter body b t)

/-- The loop over `i` (lines 28-40) on a matrix. -/
def loopIM (add : Int → Int → Int) (k j : Nat) (a : Mat) : Mat :=
  iter (fun i a => if i = k then a else relaxM add k j i a) j a

/-- The loop over `j` (lines 26-41) on a matrix: the pass for pivot `k`. -/
def passM (add : Int → Int → Int) (n k : Nat) (a : Mat) : Mat :=
  iter (fun j a => if j = k then a else loopIM add k j a) n a

/-- The loop over `k` (lines 25-42) on a matrix. -/
def fwM (add : Int → Int → Int) (n : Nat) (a : Mat) : Mat :=
  iter (fun k a => passM add n k a) n a

/-- The matrix stored in a flattened buffer; entries outside the `n × n` grid
read as 0. -/
def view (n : Nat) (dm : List Int) : Mat :=
  fun i j => if i < n ∧ j < n then dm.getD (i * n + j) 0 else 0

/-- The buffer `dm` has length `n*n` and stores the matrix `a`. -/
def Rep (n : Nat) (dm : List Int) (a : Mat) : Prop :=
  dm.length = n * n ∧ view n dm = a

/-- The guards of lines 29, 27, 32 and 35 for the pair `(i, j)` and pivot `k`,
evaluated on the matrix `a`: the pair is visited and its entry is overwritten. -/
def upd (add : Int → Int → Int) (k : Nat) (a : Mat) (i j : Nat) : Prop :=
  i ≠ k ∧ j ≠ k ∧ 0 < a i k ∧ 0 < a k j ∧ (add (a i k) (a k j) < a i j ∨ a i j = 0)

instance (add : Int → Int → Int) (k : Nat) (a : Mat) (i j : Nat) :
    Decidable (upd add k a i j) := by
  unfold upd
  infer_instance

/-- The matrix after the first `c` iterations of the loop over `i`, written from
the matrix `a` the loop started with. -/
def innerSpec (add : Int → Int → Int) (k j c : Nat) (a : Mat) : Mat :=
  fun x y =>
    if y = j ∧ x < c ∧ upd add k a x j then add (a x k) (a k j)
    else if x = j ∧ y < c ∧ upd add k a y j then add (a y k) (a k j)
    else a x y

/-- The snapshot update: the matrix after the first `J` iterations of the loop
over `j` for pivot `k`, written from the matrix `a` the pass started with. -/
def passSpec (add : Int → Int → Int) (k J : Nat) (a : Mat) : Mat :=
  fun x y =>
    if x < y ∧ y < J ∧ upd add k a x y then add (a x k) (a k y)
    else if y < x ∧ x < J ∧ upd add k a y x then add (a y k) (a k x)
    else a x y

/-! ## Paths in the input graph -/

/-- An edge of the input graph: two different nodes of `0..n-1` with a positive
entry in the matrix `m`. -/
def Edge (m : Mat) (n a b : Nat) : Prop := a < n ∧ b < n ∧ a ≠ b ∧ 0 < m a b

instance (m : Mat) (n a b : Nat) : Decidable (Edge m n a b) := by
  unfold Edge
  infer_instance

/-- The nodes `i, l₀, l₁, ..., j` form a path of edges from `i` to `j`; `l` lists
the intermediate nodes in order. -/
def IsPath (m : Mat) (n : Nat) : Nat → List Nat → Nat → Prop
  | i, [], j => Edge m n i j
  | i, v :: l, j => Edge m n i v ∧ IsPath m n v l j

instance instDecidableIsPath (m : Mat) (n : Nat) :
    (i : Nat) → (l : List Nat) → (j : Nat) → Decidable (IsPath m n i l j)
  | i, [], j => by
    unfold IsPath
    infer_instance
  | i, v :: l, j => by
    unfold IsPath
    exact @instDecidableAnd _ _ _ (instDecidableIsPath m n v l j)

/-- The sum of the entries of `m` along the path `i, l₀, l₁, ..., j`. -/
def pathWeight (m : Mat) : Nat → List Nat → Nat → Int
  | i, [], j => m i j
  | i, v :: l, j => m i v + pathWeight m v l j

/-- The contract of the outer loop after the passes for the pivots below `k`: the
matrix `d` is symmetric and non-negative off the diagonal, every positive entry is
the weight of a path of `m` with intermediate nodes below `k`, and every such
path bounds its entry, which is then positive. -/
structure FWInv (m : Mat) (n k : Nat) (d : Mat) : Prop where
  symm : ∀ i j, d i j = d j i
  nonneg : ∀ i j, i ≠ j → 0 ≤ d i j
  attained : ∀ i j, i < n → j < n → i ≠ j → 0 < d i j →
    ∃ l, (∀ v ∈ l, v < k) ∧ IsPath m n i l j ∧ pathWeight m i l j = d i j
  least : ∀ i j l, i ≠ j → (∀ v ∈ l, v < k) → IsPath m n i l j →
    0 < d i j ∧ d i j ≤ pathWeight m i l j

/-- The outer loop of lines 25-42 stopped after its first `c` iterations: the passes
for the pivots `0, ..., c-1`. With `c = n` this is `loop_k`. -/
def loop_k_upto (add : Int → Int → Int) (n c : Nat) (dm : List Int) : Option (List Int) :=
  forLoop (fun k dm => loop_j add n k dm) c dm

/-! ## Passes that visit the pairs in another order -/

/-- The buffer on entry to the iteration `(k, j, i)` of the three loops: after the
passes for the pivots below `k`, then the iterations below `j` of the loop over `j`
for pivot `k`, then the iterations below `i` of the loop over `i`. -/
def state_before (add : Int → Int → Int) (n k j i : Nat) (dm : List Int) :
    Option (List Int) :=
  (loop_k_upto add n k dm).bind fun s1 =>
  (forLoop (fun j dm => if j = k then some dm else loop_i add n k j dm) j s1).bind fun s2 =>
  forLoop (fun i dm => if i = k then some dm else relax add n k j i dm) i s2

/-! ## Index arithmetic -/

theorem idx_lt {n i j : Nat} (hi : i < n) (hj : j < n) : i * n + j < n * n := by
  have : i * n + n ≤ n * n := by
    have h1 : (i + 1) * n ≤ n * n := Nat.mul_le_mul_right n hi
    simpa [Nat.succ_mul] using h1
  omega

theorem idx_inj {n i j x y : Nat} (hj : j < n) (hy : y < n)
    (h : x * n + y = i * n + j) : x = i ∧ y = j := by
  have hn : 0 < n := by omega
  have h1 : (x * n + y) / n = x := by
    rw [Nat.add_comm, Nat.add_mul_div_right _ _ hn, Nat.div_eq_of_lt hy, Nat.zero_add]
  have h2 : (i * n + j) / n = i := by
    rw [Nat.add_comm, Nat.add_mul_div_right _ _ hn, Nat.div_eq_of_lt hj, Nat.zero_add]
  have hx : x = i := by rw [← h1, h, h2]
  subst hx
  exact ⟨rfl, by omega⟩

theorem readAt_eq {n : Nat} {dm : List Int} (hlen : dm.length = n * n) {i j : Nat}
    (hi : i < n) (hj : j < n) : readAt dm (i * n + j) = some (view n dm i j) := by
  have h := idx_lt hi hj
  simp [readAt, view, hi, hj, List.getD_eq_getElem?_getD, List.getElem?_eq_getElem, hlen, h]

theorem writeAt_eq {n : Nat} {dm : List Int} (hlen : dm.length = n * n) {i j : Nat}
    (hi : i < n) (hj : j < n) (v : Int) :
    writeAt dm (i * n + j) v = some (dm.set (i * n + j) v) := by
  simp [writeAt, hlen, idx_lt hi hj]

theorem view_set {n : Nat} {dm : List Int} (hlen : dm.length = n * n) {i j : Nat}
    (hi : i < n) (hj : j < n) (v : Int) :
    view n (dm.set (i * n + j) v) = setM (view n dm) i j v := by
  funext x y
  unfold view setM
  by_cases hxy : x < n ∧ y < n
  · have hlt := idx_lt hi hj
    by_cases he : x = i ∧ y = j
    · obtain ⟨rfl, rfl⟩ := he
      simp [hxy, List.getD_eq_getElem?_getD, List.getElem?_set, hlen, hlt]
    · have hne : i * n + j ≠ x * n + y := by
        intro hh
        exact he (idx_inj hj hxy.2 hh.symm)
      simp [hxy, he, List.getD_eq_getElem?_getD, List.getElem?_set, hne]
  · have he : ¬ (x = i ∧ y = j) := by
      rintro ⟨rfl, rfl⟩
      exact hxy ⟨hi, hj⟩
    simp [hxy, he]

/-! ## The buffer-level code computes the matrix-level functions -/

theorem relax_sim (add : Int → Int → Int) {n k j i : Nat} (hk : k < n) (hj : j < n)
    (hi : i < n) {dm : List Int} {a : Mat} (h : Rep n dm a) :
    ∃ dm1, relax add n k j i dm = some dm1 ∧ Rep n dm1 (relaxM add k j i a) := by
  obtain ⟨hlen, rfl⟩ := h
  unfold relax relaxM
  rw [readAt_eq hlen hi hk, readAt_eq hlen hk hj, readAt_eq hlen hi hj]
  simp only [Option.some_bind, Option.bind_eq_bind]
  by_cases h1 : 0 < view n dm i k ∧ 0 < view n dm k j
  · rw [if_pos h1, if_pos h1]
    by_cases h2 : add (view n dm i k) (view n dm k j) < view n dm i j ∨ view n dm i j = 0
    · rw [if_pos h2, if_pos h2, writeAt_eq hlen hi hj]
      have hlen1 : (dm.set (i * n + j) (add (view n dm i k) (view n dm k j))).length = n * n := by
        simp [hlen]
      simp only [Option.some_bind]
      rw [writeAt_eq hlen1 hj hi]
      refine ⟨_, rfl, by simp [hlen], ?_⟩
      rw [view_set hlen1 hj hi, view_set hlen hi hj]
    · rw [if_neg h2, if_neg h2]
      exact ⟨dm, rfl, hlen, rfl⟩
  · rw [if_neg h1, if_neg h1]
    exact ⟨dm, rfl, hlen, rfl⟩

theorem forLoop_sim {σ τ : Type} (R : σ → τ → Prop) (body : Nat → σ → Option σ)
    (bodyM : Nat → τ → τ) (b : Nat)
    (hb : ∀ c, c < b → ∀ s t, R s t → ∃ s1, body c s = some s1 ∧ R s1 (bodyM c t))
    (s : σ) (t : τ) (h : R s t) :
    ∃ s1, forLoop body b s = some s1 ∧ R s1 (iter bodyM b t) := by
  induction b with
  | zero => exact ⟨s, rfl, h⟩
  | succ b ih =>
    obtain ⟨s1, hs1, hr1⟩ := ih (fun c hc => hb c (Nat.lt_succ_of_lt hc))
    obtain ⟨s2, hs2, hr2⟩ := hb b (Nat.lt_succ_self b) s1 _ hr1
    refine ⟨s2, ?_, hr2⟩
    simp [forLoop, hs1, hs2]

theorem loop_i_sim (add : Int → Int → Int) {n k j : Nat} (hk : k < n) (hj : j < n)
    {dm : List Int} {a : Mat} (h : Rep n dm a) :
    ∃ dm1, loop_i add n k j dm = some dm1 ∧ Rep n dm1 (loopIM add k j a) := by
  unfold loop_i loopIM
  apply forLoop_sim (Rep n) _ _ j _ dm a h
  intro c hc s t hst
  by_cases hck : c = k
  · simp only [hck, if_true]
    exact ⟨s, rfl, hst⟩
  · simp only [hck, if_false]
    exact relax_sim add hk hj (by omega) hst

theorem loop_j_sim (add : Int → Int → Int) {n k : Nat} (hk : k < n)
    {dm : List Int} {a : Mat} (h : Rep n dm a) :
    ∃ dm1, loop_j add n k dm = some dm1 ∧ Rep n dm1 (passM add n k a) := by
  unfold loop_j passM
  apply forLoop_sim (Rep n) _ _ n _ dm a h
  intro c hc s t hst
  by_cases hck : c = k
  · simp only [hck, if_true]
    exact ⟨s, rfl, hst⟩
  · simp only [hck, if_false]
    exact loop_i_sim add hk hc hst

theorem loop_k_sim (add : Int → Int → Int) {n : Nat}
    {dm : List Int} {a : Mat} (h : Rep n dm a) :
    ∃ dm1, loop_k add n dm = some dm1 ∧ Rep n dm1 (fwM add n a) := by
  unfold loop_k fwM
  apply forLoop_sim (Rep n) _ _ n _ dm a h
  intro c hc s t hst
  exact loop_j_sim add hc hst

/-! ## One pass is a snapshot update -/

theorem upd_congr (add : Int → Int → Int) (k : Nat) {a b : Mat} {i j : Nat}
    (h1 : b i k = a i k) (h2 : b k j = a k j) (h3 : b i j = a i j) :
    upd add k b i j ↔ upd add k a i j := by
  unfold upd
  rw [h1, h2, h3]

theorem innerSpec_succ (add : Int → Int → Int) (k j c : Nat) (a : Mat) (x y : Nat)
    (h : ¬ ((x = c ∧ y = j ∨ x = j ∧ y = c) ∧ upd add k a c j)) :
    innerSpec add k j (c + 1) a x y = innerSpec add k j c a x y := by
  have e1 : (y = j ∧ x < c + 1 ∧ upd add k a x j) ↔ (y = j ∧ x < c ∧ upd add k a x j) := by
    constructor
    · rintro ⟨h1, h2, h3⟩
      refine ⟨h1, ?_, h3⟩
      by_contra hh
      have hxc : x = c := by omega
      subst hxc
      exact h ⟨Or.inl ⟨rfl, h1⟩, h3⟩
    · rintro ⟨h1, h2, h3⟩
      exact ⟨h1, by omega, h3⟩
  have e2 : (x = j ∧ y < c + 1 ∧ upd add k a y j) ↔ (x = j ∧ y < c ∧ upd add k a y j) := by
    constructor
    · rintro ⟨h1, h2, h3⟩
      refine ⟨h1, ?_, h3⟩
      by_contra hh
      have hyc : y = c := by omega
      subst hyc
      exact h ⟨Or.inr ⟨h1, rfl⟩, h3⟩
    · rintro ⟨h1, h2, h3⟩
      exact ⟨h1, by omega, h3⟩
  unfold innerSpec
  simp only [e1, e2]

theorem iter_loopI (add : Int → Int → Int) (k j : Nat) (hjk : j ≠ k) (a : Mat) (c : Nat)
    (hc : c ≤ j) :
    iter (fun i a => if i = k then a else relaxM add k j i a) c a = innerSpec add k j c a := by
  induction c with
  | zero =>
    funext x y
    simp [iter, innerSpec]
  | succ c ih =>
    rw [iter, ih (by omega)]
    by_cases hck : c = k
    · subst hck
      simp only [if_true]
      funext x y
      refine (innerSpec_succ add c j c a x y ?_).symm
      rintro ⟨-, hu⟩
      exact hu.1 rfl
    · simp only [hck, if_false]
      have hcj : c ≠ j := by omega
      have hkj : k ≠ j := Ne.symm hjk
      have r1 : innerSpec add k j c a c k = a c k := by
        unfold innerSpec
        simp [hcj, hkj]
      have r2 : innerSpec add k j c a k j = a k j := by
        unfold innerSpec upd
        simp [hkj]
      have r3 : innerSpec add k j c a c j = a c j := by
        unfold innerSpec
        simp [hcj]
      unfold relaxM
      rw [r1, r2, r3]
      funext x y
      by_cases hu : upd add k a c j
      · have h1 : 0 < a c k ∧ 0 < a k j := ⟨hu.2.2.1, hu.2.2.2.1⟩
        have h2 := hu.2.2.2.2
        rw [if_pos h1, if_pos h2]
        unfold setM
        by_cases hx1 : x = j ∧ y = c
        · obtain ⟨rfl, rfl⟩ := hx1
          simp [innerSpec, hu, hcj]
        · rw [if_neg hx1]
          by_cases hx2 : x = c ∧ y = j
          · obtain ⟨rfl, rfl⟩ := hx2
            simp [innerSpec, hu]
          · rw [if_neg hx2]
            refine (innerSpec_succ add k j c a x y ?_).symm
            rintro ⟨h3 | h3, -⟩
            · exact hx2 h3
            · exact hx1 h3
      · have hid : (if 0 < a c k ∧ 0 < a k j then
            if add (a c k) (a k j) < a c j ∨ a c j = 0 then
              setM (setM (innerSpec add k j c a) c j (add (a c k) (a k j))) j c
                (add (a c k) (a k j))
            else innerSpec add k j c a
          else innerSpec add k j c a) = innerSpec add k j c a := by
          by_cases h1 : 0 < a c k ∧ 0 < a k j
          · rw [if_pos h1]
            have h2 : ¬ (add (a c k) (a k j) < a c j ∨ a c j = 0) := by
              intro h2
              exact hu ⟨hck, hjk, h1.1, h1.2, h2⟩
            rw [if_neg h2]
          · rw [if_neg h1]
        rw [hid]
        refine (innerSpec_succ add k j c a x y ?_).symm
        rintro ⟨-, h3⟩
        exact hu h3

theorem loopIM_eq (add : Int → Int → Int) (k j : Nat) (hjk : j ≠ k) (a : Mat) :
    loopIM add k j a = innerSpec add k j j a :=
  iter_loopI add k j hjk a j (Nat.le_refl j)

theorem passSpec_succ (add : Int → Int → Int) (k J : Nat) (a : Mat) (x y : Nat)
    (h : ¬ ((x < J ∧ y = J ∨ x = J ∧ y < J) ∧ upd add k a (min x y) J)) :
    passSpec add k (J + 1) a x y = passSpec add k J a x y := by
  have e1 : (x < y ∧ y < J + 1 ∧ upd add k a x y) ↔ (x < y ∧ y < J ∧ upd add k a x y) := by
    constructor
    · rintro ⟨h1, h2, h3⟩
      refine ⟨h1, ?_, h3⟩
      by_contra hh
      have hyJ : y = J := by omega
      subst hyJ
      have hm : min x y = x := by omega
      exact h ⟨Or.inl ⟨h1, rfl⟩, by rw [hm]; exact h3⟩
    · rintro ⟨h1, h2, h3⟩
      exact ⟨h1, by omega, h3⟩
  have e2 : (y < x ∧ x < J + 1 ∧ upd add k a y x) ↔ (y < x ∧ x < J ∧ upd add k a y x) := by
    constructor
    · rintro ⟨h1, h2, h3⟩
      refine ⟨h1, ?_, h3⟩
      by_contra hh
      have hxJ : x = J := by omega
      subst hxJ
      have hm : min x y = y := by omega
      exact h ⟨Or.inr ⟨rfl, h1⟩, by rw [hm]; exact h3⟩
    · rintro ⟨h1, h2, h3⟩
      exact ⟨h1, by omega, h3⟩
  unfold passSpec
  simp only [e1, e2]

theorem passSpec_col (add : Int → Int → Int) (k J : Nat) (a : Mat) (x : Nat) :
    passSpec add k J a x k = a x k := by
  unfold passSpec upd
  simp

theorem passSpec_row (add : Int → Int → Int) (k J : Nat) (a : Mat) (y : Nat) :
    passSpec add k J a k y = a k y := by
  unfold passSpec upd
  simp

theorem passSpec_last (add : Int → Int → Int) (k J : Nat) (a : Mat) (x : Nat) :
    passSpec add k J a x J = a x J := by
  unfold passSpec
  have h1 : ¬ (x < J ∧ J < J ∧ upd add k a x J) := by
    rintro ⟨-, h, -⟩
    omega
  have h2 : ¬ (J < x ∧ x < J ∧ upd add k a J x) := by
    rintro ⟨h, h3, -⟩
    omega
  rw [if_neg h1, if_neg h2]

theorem passSpec_last_row (add : Int → Int → Int) (k J : Nat) (a : Mat) (y : Nat) :
    passSpec add k J a J y = a J y := by
  unfold passSpec
  have h1 : ¬ (J < y ∧ y < J ∧ upd add k a J y) := by
    rintro ⟨h, h3, -⟩
    omega
  have h2 : ¬ (y < J ∧ J < J ∧ upd add k a y J) := by
    rintro ⟨-, h, -⟩
    omega
  rw [if_neg h1, if_neg h2]

theorem iter_pass (add : Int → Int → Int) (k : Nat) (a : Mat) (J : Nat) :
    iter (fun j a => if j = k then a else loopIM add k j a) J a = passSpec add k J a := by
  induction J with
  | zero =>
    funext x y
    simp [iter, passSpec]
  | succ J ih =>
    rw [iter, ih]
    by_cases hJk : J = k
    · subst hJk
      simp only [if_true]
      funext x y
      refine (passSpec_succ add J J a x y ?_).symm
      rintro ⟨-, hu⟩
      exact hu.2.1 rfl
    · simp only [hJk, if_false]
      rw [loopIM_eq add k J hJk]
      funext x y
      have hu : ∀ z, upd add k (passSpec add k J a) z J ↔ upd add k a z J := fun z =>
        upd_congr add k (passSpec_col add k J a z) (passSpec_row add k J a J)
          (passSpec_last add k J a z)
      unfold innerSpec
      simp only [hu, passSpec_col, passSpec_row]
      by_cases c1 : y = J ∧ x < J
      · obtain ⟨rfl, hx⟩ := c1
        have hx2 : ¬ (x = y) := by omega
        have hx3 : ¬ (y < x) := by omega
        simp [passSpec, passSpec_last, hx, hx2, hx3]
      · by_cases c2 : x = J ∧ y < J
        · obtain ⟨rfl, hy⟩ := c2
          have hy2 : ¬ (y = x) := by omega
          have hy3 : ¬ (x < y) := by omega
          simp [passSpec, passSpec_last_row, hy, hy2, hy3]
        · have n1 : ¬ (y = J ∧ x < J ∧ upd add k a x J) := fun hh => c1 ⟨hh.1, hh.2.1⟩
          have n2 : ¬ (x = J ∧ y < J ∧ upd add k a y J) := fun hh => c2 ⟨hh.1, hh.2.1⟩
          rw [if_neg n1, if_neg n2]
          refine (passSpec_succ add k J a x y ?_).symm
          rintro ⟨h3 | h3, -⟩
          · exact c1 ⟨h3.2, h3.1⟩
          · exact c2 h3

/-- One pass of the loop over `j` is the snapshot update `passSpec`. -/
theorem passM_eq (add : Int → Int → Int) (n k : Nat) (a : Mat) :
    passM add n k a = passSpec add k n a :=
  iter_pass add k a n

/-! ## Symmetric matrices -/

theorem passSpec_symm (add : Int → Int → Int) (k n : Nat) {a : Mat}
    (ha : ∀ i j, a i j = a j i) (x y : Nat) :
    passSpec add k n a x y = passSpec add k n a y x := by
  unfold passSpec
  by_cases h1 : x < y ∧ y < n ∧ upd add k a x y
  · have h2 : ¬ (y < x ∧ x < n ∧ upd add k a y x) := by
      rintro ⟨h, -, -⟩
      omega
    rw [if_pos h1, if_neg h2, if_pos h1]
  · rw [if_neg h1]
    by_cases h2 : y < x ∧ x < n ∧ upd add k a y x
    · rw [if_pos h2, if_pos h2]
    · rw [if_neg h2, if_neg h2, if_neg h1]
      exact ha x y

theorem upd_swap (k : Nat) {a : Mat} (ha : ∀ i j, a i j = a j i) (x y : Nat) :
    upd (fun a b => a + b) k a y x ↔ upd (fun a b => a + b) k a x y := by
  unfold upd
  beta_reduce
  rw [ha y k, ha k x, ha y x, Int.add_comm (a k y) (a x k)]
  constructor
  · rintro ⟨h1, h2, h3, h4, h5⟩
    exact ⟨h2, h1, h4, h3, h5⟩
  · rintro ⟨h1, h2, h3, h4, h5⟩
    exact ⟨h2, h1, h4, h3, h5⟩

theorem passSpec_val (k n : Nat) {a : Mat} (ha : ∀ i j, a i j = a j i) {x y : Nat}
    (hx : x < n) (hy : y < n) (hxy : x ≠ y) :
    passSpec (fun a b => a + b) k n a x y
      = if upd (fun a b => a + b) k a x y then a x k + a k y else a x y := by
  rcases Nat.lt_or_gt_of_ne hxy with h | h
  · unfold passSpec
    have h2 : ¬ (y < x ∧ x < n ∧ upd (fun a b => a + b) k a y x) := by
      rintro ⟨h3, -, -⟩
      omega
    by_cases hu : upd (fun a b => a + b) k a x y
    · rw [if_pos ⟨h, hy, hu⟩, if_pos hu]
    · have h1 : ¬ (x < y ∧ y < n ∧ upd (fun a b => a + b) k a x y) := fun hh => hu hh.2.2
      rw [if_neg h1, if_neg h2, if_neg hu]
  · unfold passSpec
    have h1 : ¬ (x < y ∧ y < n ∧ upd (fun a b => a + b) k a x y) := by
      rintro ⟨h3, -, -⟩
      omega
    rw [if_neg h1]
    by_cases hu : upd (fun a b => a + b) k a x y
    · have hu2 := (upd_swap k ha x y).2 hu
      rw [if_pos ⟨h, hx, hu2⟩, if_pos hu, ha y k, ha k x, Int.add_comm]
    · have h2 : ¬ (y < x ∧ x < n ∧ upd (fun a b => a + b) k a y x) :=
        fun hh => hu ((upd_swap k ha x y).1 hh.2.2)
      rw [if_neg h2, if_neg hu]

/-! ## Paths: weights, concatenation and splitting at the pivot -/

theorem pathWeight_pos {m : Mat} {n : Nat} : ∀ (l : List Nat) (i j : Nat),
    IsPath m n i l j → 0 < pathWeight m i l j
  | [], i, j, h => h.2.2.2
  | v :: l, i, j, h => by
    have h1 : 0 < m i v := h.1.2.2.2
    have h2 := pathWeight_pos l v j h.2
    simp only [pathWeight]
    omega

theorem isPath_append {m : Mat} {n : Nat} (k j : Nat) (l2 : List Nat) :
    ∀ (l1 : List Nat) (i : Nat), IsPath m n i l1 k → IsPath m n k l2 j →
      IsPath m n i (l1 ++ k :: l2) j
  | [], _, h1, h2 => ⟨h1, h2⟩
  | v :: l1, _, h1, h2 => ⟨h1.1, isPath_append k j l2 l1 v h1.2 h2⟩

theorem pathWeight_append (m : Mat) (k j : Nat) (l2 : List Nat) (l1 : List Nat) :
    ∀ i : Nat,
      pathWeight m i (l1 ++ k :: l2) j = pathWeight m i l1 k + pathWeight m k l2 j := by
  induction l1 with
  | nil => intro i; rfl
  | cons v l1 ih =>
    intro i
    show m i v + pathWeight m v (l1 ++ k :: l2) j
      = m i v + pathWeight m v l1 k + pathWeight m k l2 j
    rw [ih v]
    omega

theorem isPath_bounds {m : Mat} {n : Nat} : ∀ (l : List Nat) (i j : Nat),
    IsPath m n i l j → i < n ∧ j < n ∧ ∀ v ∈ l, v < n
  | [], i, j, h => ⟨h.1, h.2.1, by simp⟩
  | v :: l, i, j, h => by
    obtain ⟨h1, h2, h3⟩ := isPath_bounds l v j h.2
    refine ⟨h.1.1, h2, ?_⟩
    intro w hw
    rcases List.mem_cons.1 hw with rfl | hw
    · exact h1
    · exact h3 w hw

/-- A path that visits the pivot `k` contains a path from `k` to its end that
avoids `k` and weighs no more. -/
theorem path_from_pivot {m : Mat} {n k : Nat} (j : Nat) : ∀ (l : List Nat) (x : Nat),
    IsPath m n x l j → (∀ v ∈ l, v < k + 1) → k ∈ l →
    ∃ l2, (∀ v ∈ l2, v < k) ∧ IsPath m n k l2 j ∧ pathWeight m k l2 j ≤ pathWeight m x l j
  | [], x, _, _, hk => by simp at hk
  | v :: l, x, hp, hb, hk => by
    have hxv : 0 < m x v := hp.1.2.2.2
    by_cases hkl : k ∈ l
    · obtain ⟨l2, h1, h2, h3⟩ := path_from_pivot j l v hp.2
        (fun w hw => hb w (List.mem_cons_of_mem v hw)) hkl
      refine ⟨l2, h1, h2, ?_⟩
      simp only [pathWeight]
      omega
    · have hvk : k = v := by
        rcases List.mem_cons.1 hk with h | h
        · exact h
        · exact absurd h hkl
      subst hvk
      refine ⟨l, ?_, hp.2, ?_⟩
      · intro w hw
        have h1 := hb w (List.mem_cons_of_mem k hw)
        have h2 : w ≠ k := fun h => hkl (h ▸ hw)
        omega
      · simp only [pathWeight]
        omega

/-- A path that visits the pivot `k` splits at the first visit into a path to `k`
avoiding `k` and a path from `k`. -/
theorem path_to_pivot {m : Mat} {n k : Nat} (j : Nat) : ∀ (l : List Nat) (x : Nat),
    IsPath m n x l j → (∀ v ∈ l, v < k + 1) → k ∈ l →
    ∃ l1 l3, (∀ v ∈ l1, v < k) ∧ IsPath m n x l1 k ∧ (∀ v ∈ l3, v < k + 1) ∧
      IsPath m n k l3 j ∧ pathWeight m x l j = pathWeight m x l1 k + pathWeight m k l3 j
  | [], x, _, _, hk => by simp at hk
  | v :: l, x, hp, hb, hk => by
    by_cases hvk : v = k
    · subst hvk
      exact ⟨[], l, by simp, hp.1, fun w hw => hb w (List.mem_cons_of_mem v hw), hp.2, rfl⟩
    · have hkl : k ∈ l := by
        rcases List.mem_cons.1 hk with h | h
        · exact absurd h.symm hvk
        · exact h
      obtain ⟨l1, l3, h1, h2, h3, h4, h5⟩ := path_to_pivot j l v hp.2
        (fun w hw => hb w (List.mem_cons_of_mem v hw)) hkl
      refine ⟨v :: l1, l3, ?_, ⟨hp.1, h2⟩, h3, h4, ?_⟩
      · intro w hw
        rcases List.mem_cons.1 hw with rfl | hw
        · have := hb w (List.mem_cons_self w l)
          omega
        · exact h1 w hw
      · simp only [pathWeight, h5]
        omega

/-- Any path with intermediate nodes up to `k` that starts at `k` is bounded
below by a path from `k` with intermediate nodes below `k`. -/
theorem path_from_pivot_all {m : Mat} {n k : Nat} (j : Nat) (l : List Nat)
    (hp : IsPath m n k l j) (hb : ∀ v ∈ l, v < k + 1) :
    ∃ l2, (∀ v ∈ l2, v < k) ∧ IsPath m n k l2 j ∧ pathWeight m k l2 j ≤ pathWeight m k l j := by
  by_cases hk : k ∈ l
  · exact path_from_pivot j l k hp hb hk
  · refine ⟨l, ?_, hp, Int.le_refl _⟩
    intro w hw
    have h1 := hb w hw
    have h2 : w ≠ k := fun h => hk (h ▸ hw)
    omega

theorem isPath_split {m : Mat} {n : Nat} (k j : Nat) (l2 : List Nat) (l1 : List Nat) :
    ∀ i : Nat, IsPath m n i (l1 ++ k :: l2) j → IsPath m n i l1 k ∧ IsPath m n k l2 j := by
  induction l1 with
  | nil =>
    intro i h
    exact ⟨h.1, h.2⟩
  | cons v l1 ih =>
    intro i h
    have h1 : Edge m n i v := h.1
    have h2 : IsPath m n v (l1 ++ k :: l2) j := h.2
    exact ⟨⟨h1, (ih v h2).1⟩, (ih v h2).2⟩

/-- Every path between two different nodes contains a path without repeated
nodes that weighs no more. -/
theorem path_simple {m : Mat} {n : Nat} (j : Nat) (l : List Nat) :
    ∀ i : Nat, IsPath m n i l j → i ≠ j →
      ∃ l0, IsPath m n i l0 j ∧ (i :: l0 ++ [j]).Nodup ∧
        pathWeight m i l0 j ≤ pathWeight m i l j := by
  induction l with
  | nil =>
    intro i hp hij
    exact ⟨[], hp, by simpa using hij, Int.le_refl _⟩
  | cons v l ih =>
    intro i hp hij
    have hiv : i ≠ v := hp.1.2.2.1
    have hmiv : 0 < m i v := hp.1.2.2.2
    have hrest := pathWeight_pos l v j hp.2
    by_cases hvj : v = j
    · subst hvj
      refine ⟨[], hp.1, by simpa using hij, ?_⟩
      simp only [pathWeight]
      omega
    · obtain ⟨l0, p0, nd0, w0⟩ := ih v hp.2 hvj
      by_cases hil : i ∈ l0
      · obtain ⟨s, t, rfl⟩ := List.append_of_mem hil
        obtain ⟨p1, p2⟩ := isPath_split i j t s v p0
        have hpos := pathWeight_pos s v i p1
        refine ⟨t, p2, ?_, ?_⟩
        · have hsub : (i :: t ++ [j]).Sublist (v :: (s ++ i :: t) ++ [j]) := by
            simp
          exact nd0.sublist hsub
        · rw [pathWeight_append] at w0
          simp only [pathWeight]
          omega
      · refine ⟨v :: l0, ⟨hp.1, p0⟩, ?_, ?_⟩
        · have h1 : i ∉ v :: l0 ++ [j] := by
            simp only [List.cons_append, List.mem_cons, List.mem_append, List.mem_singleton,
              not_or]
            exact ⟨hiv, hil, by simpa using hij⟩
          exact List.nodup_cons.2 ⟨h1, nd0⟩
        · simp only [pathWeight]
          omega

/-! ## The invariant of the outer loop -/

theorem fwInv_zero {m : Mat} {n : Nat} (hs : ∀ i j, m i j = m j i)
    (hn : ∀ i j, 0 ≤ m i j) : FWInv m n 0 m where
  symm := hs
  nonneg := fun i j _ => hn i j
  attained := fun i j hi hj hij hpos => ⟨[], by simp, ⟨hi, hj, hij, hpos⟩, rfl⟩
  least := by
    intro i j l _ hb hp
    cases l with
    | nil => exact ⟨hp.2.2.2, Int.le_refl _⟩
    | cons v l => exact absurd (hb v (List.mem_cons_self v l)) (Nat.not_lt_zero v)

theorem fwInv_step {m : Mat} {n k : Nat} {d : Mat} (hk : k < n) (h : FWInv m n k d) :
    FWInv m n (k + 1) (passSpec (fun a b => a + b) k n d) := by
  have hval : ∀ x y, x < n → y < n → x ≠ y → passSpec (fun a b => a + b) k n d x y
      = if upd (fun a b => a + b) k d x y then d x k + d k y else d x y :=
    fun x y hx hy hxy => passSpec_val k n h.symm hx hy hxy
  refine ⟨passSpec_symm _ k n h.symm, ?_, ?_, ?_⟩
  · intro i j hij
    by_cases hin : i < n ∧ j < n
    · rw [hval i j hin.1 hin.2 hij]
      by_cases hu : upd (fun a b => a + b) k d i j
      · rw [if_pos hu]
        have h1 := hu.2.2.1
        have h2 := hu.2.2.2.1
        omega
      · rw [if_neg hu]
        exact h.nonneg i j hij
    · have e : passSpec (fun a b => a + b) k n d i j = d i j := by
        unfold passSpec
        have c1 : ¬ (i < j ∧ j < n ∧ upd (fun a b => a + b) k d i j) := by
          rintro ⟨h1, h2, -⟩
          exact hin ⟨by omega, h2⟩
        have c2 : ¬ (j < i ∧ i < n ∧ upd (fun a b => a + b) k d j i) := by
          rintro ⟨h1, h2, -⟩
          exact hin ⟨h2, by omega⟩
        rw [if_neg c1, if_neg c2]
      rw [e]
      exact h.nonneg i j hij
  · intro i j hi hj hij hpos
    rw [hval i j hi hj hij] at hpos ⊢
    by_cases hu : upd (fun a b => a + b) k d i j
    · rw [if_pos hu]
      obtain ⟨l1, b1, p1, w1⟩ := h.attained i k hi hk hu.1 hu.2.2.1
      obtain ⟨l2, b2, p2, w2⟩ := h.attained k j hk hj (Ne.symm hu.2.1) hu.2.2.2.1
      refine ⟨l1 ++ k :: l2, ?_, isPath_append k j l2 l1 i p1 p2, ?_⟩
      · intro v hv
        rcases List.mem_append.1 hv with hv | hv
        · exact Nat.lt_succ_of_lt (b1 v hv)
        · rcases List.mem_cons.1 hv with rfl | hv
          · exact Nat.lt_succ_self _
          · exact Nat.lt_succ_of_lt (b2 v hv)
      · rw [pathWeight_append, w1, w2]
    · rw [if_neg hu] at hpos ⊢
      obtain ⟨l, b, p, w⟩ := h.attained i j hi hj hij hpos
      exact ⟨l, fun v hv => Nat.lt_succ_of_lt (b v hv), p, w⟩
  · intro i j l hij hb hp
    obtain ⟨hi, hj, -⟩ := isPath_bounds l i j hp
    rw [hval i j hi hj hij]
    by_cases hkl : k ∈ l
    · obtain ⟨l1, l3, b1, p1, b3, p3, hw⟩ := path_to_pivot j l i hp hb hkl
      obtain ⟨l2, b2, p2, hw2⟩ := path_from_pivot_all j l3 p3 b3
      have pos1 := pathWeight_pos l1 i k p1
      have pos3 := pathWeight_pos l3 k j p3
      by_cases hik : i = k
      · subst hik
        have hnu : ¬ upd (fun a b => a + b) i d i j := fun hu => hu.1 rfl
        rw [if_neg hnu]
        obtain ⟨q1, q2⟩ := h.least i j l2 hij b2 p2
        exact ⟨q1, by omega⟩
      · by_cases hjk : j = k
        · subst hjk
          have hnu : ¬ upd (fun a b => a + b) j d i j := fun hu => hu.2.1 rfl
          rw [if_neg hnu]
          obtain ⟨q1, q2⟩ := h.least i j l1 hij b1 p1
          exact ⟨q1, by omega⟩
        · obtain ⟨q1, q2⟩ := h.least i k l1 hik b1 p1
          obtain ⟨q3, q4⟩ := h.least k j l2 (Ne.symm hjk) b2 p2
          by_cases hu : upd (fun a b => a + b) k d i j
          · rw [if_pos hu]
            exact ⟨by omega, by omega⟩
          · rw [if_neg hu]
            have hnn := h.nonneg i j hij
            have hc : ¬ (d i k + d k j < d i j ∨ d i j = 0) :=
              fun hc => hu ⟨hik, hjk, q1, q3, hc⟩
            have hc1 : ¬ (d i k + d k j < d i j) := fun hh => hc (Or.inl hh)
            have hc2 : ¬ (d i j = 0) := fun hh => hc (Or.inr hh)
            exact ⟨by omega, by omega⟩
    · have hb2 : ∀ v ∈ l, v < k := by
        intro v hv
        have h1 := hb v hv
        have h2 : v ≠ k := fun hh => hkl (hh ▸ hv)
        omega
      obtain ⟨q1, q2⟩ := h.least i j l hij hb2 hp
      by_cases hu : upd (fun a b => a + b) k d i j
      · rw [if_pos hu]
        have h1 := hu.2.2.1
        have h2 := hu.2.2.2.1
        have h3 : d i k + d k j < d i j ∨ d i j = 0 := hu.2.2.2.2
        exact ⟨by omega, by omega⟩
      · rw [if_neg hu]
        exact ⟨q1, q2⟩

theorem fwInv_iter {m : Mat} {n : Nat} (hs : ∀ i j, m i j = m j i) (hn : ∀ i j, 0 ≤ m i j) :
    ∀ c, c ≤ n → FWInv m n c (iter (fun k a => passM (fun a b => a + b) n k a) c m)
  | 0, _ => fwInv_zero hs hn
  | c + 1, hc => by
    have ih := fwInv_iter hs hn c (Nat.le_of_succ_le hc)
    show FWInv m n (c + 1) (passM (fun a b => a + b) n c _)
    rw [passM_eq]
    exact fwInv_step hc ih

theorem fwInv_fwM {m : Mat} {n : Nat} (hs : ∀ i j, m i j = m j i) (hn : ∀ i j, 0 ≤ m i j) :
    FWInv m n n (fwM (fun a b => a + b) n m) :=
  fwInv_iter hs hn n (Nat.le_refl n)

/-! ## From buffers to matrices and back -/

theorem entry_eq_view {n : Nat} {dm : List Int} (hlen : dm.length = n * n) {i j : Nat}
    (hi : i < n) (hj : j < n) : entry n dm i j = some (view n dm i j) :=
  readAt_eq hlen hi hj

theorem entry_of_rep {n : Nat} {dm : List Int} {a : Mat} (h : Rep n dm a) {i j : Nat}
    (hi : i < n) (hj : j < n) : entry n dm i j = some (a i j) := by
  rw [entry_eq_view h.1 hi hj, h.2]

theorem view_symm {n : Nat} {dm : List Int} (hlen : dm.length = n * n)
    (hsym : ∀ i j, i < n → j < n → entry n dm i j = entry n dm j i) (i j : Nat) :
    view n dm i j = view n dm j i := by
  by_cases h : i < n ∧ j < n
  · have h1 := hsym i j h.1 h.2
    rw [entry_eq_view hlen h.1 h.2, entry_eq_view hlen h.2 h.1] at h1
    exact Option.some.inj h1
  · have h2 : ¬ (j < n ∧ i < n) := fun hh => h ⟨hh.2, hh.1⟩
    simp only [view, if_neg h, if_neg h2]

theorem view_nonneg {n : Nat} {dm : List Int} (hlen : dm.length = n * n)
    (hnn : ∀ x ∈ dm, 0 ≤ x) (i j : Nat) : 0 ≤ view n dm i j := by
  by_cases h : i < n ∧ j < n
  · have h1 := idx_lt h.1 h.2
    have h2 : view n dm i j = dm[i * n + j] := by
      simp [view, h, List.getD_eq_getElem?_getD, List.getElem?_eq_getElem, hlen, h1]
    rw [h2]
    exact hnn _ (List.getElem_mem _)
  · simp only [view, if_neg h]
    exact Int.le_refl 0

theorem rep_unique {n : Nat} {dm1 dm2 : List Int} {a : Mat} (h1 : Rep n dm1 a)
    (h2 : Rep n dm2 a) : dm1 = dm2 := by
  apply List.ext_getElem (by rw [h1.1, h2.1])
  intro idx hidx1 hidx2
  have hlt : idx < n * n := by rw [← h1.1]; exact hidx1
  have hn : 0 < n := by
    rcases Nat.eq_zero_or_pos n with h | h
    · subst h; simp at hlt
    · exact h
  have hi : idx / n < n := Nat.div_lt_of_lt_mul hlt
  have hj : idx % n < n := Nat.mod_lt _ hn
  have hidx : idx / n * n + idx % n = idx := by
    rw [Nat.mul_comm]; exact Nat.div_add_mod idx n
  have e1 := entry_of_rep h1 hi hj
  have e2 := entry_of_rep h2 hi hj
  unfold entry at e1 e2
  rw [hidx] at e1 e2
  rw [List.getElem?_eq_getElem hidx1] at e1
  rw [List.getElem?_eq_getElem hidx2] at e2
  rw [Option.some.inj e1, Option.some.inj e2]

theorem gfw_rep (add : Int → Int → Int) (n : Nat) {dm : List Int} {a : Mat}
    (h : Rep n dm a) :
    ∃ out, loop_k add (n : Int).toNat dm = some out ∧ Rep n out (fwM add n a) := by
  rw [Int.toNat_ofNat]
  exact loop_k_sim add h

theorem iter_invariant {τ : Type} (P : τ → Prop) (body : Nat → τ → τ) (b : Nat)
    (hb : ∀ c, c < b → ∀ t, P t → P (body c t)) (t : τ) (h : P t) : P (iter body b t) := by
  induction b with
  | zero => exact h
  | succ b ih => exact hb b (Nat.lt_succ_self b) _ (ih (fun c hc => hb c (Nat.lt_succ_of_lt hc)))

theorem passSpec_diag (add : Int → Int → Int) (k n : Nat) (a : Mat) (x : Nat) :
    passSpec add k n a x x = a x x := by
  unfold passSpec
  have h1 : ¬ (x < x ∧ x < n ∧ upd add k a x x) := by
    rintro ⟨h, -, -⟩
    omega
  rw [if_neg h1, if_neg h1]

theorem fwM_diag (add : Int → Int → Int) (n : Nat) (a : Mat) (x : Nat) :
    fwM add n a x x = a x x := by
  unfold fwM
  apply iter_invariant (fun d : Mat => d x x = a x x) _ n _ a rfl
  intro c _ t ht
  rw [passM_eq, passSpec_diag]
  exact ht

/-- A matrix satisfying the invariant for all `n` pivots satisfies the triangle
inequality between different nodes. -/
theorem fwInv_triangle {m : Mat} {n : Nat} {d : Mat} (h : FWInv m n n d) {i j k : Nat}
    (hi : i < n) (hj : j < n) (hk : k < n) (hij : i ≠ j) (hik : i ≠ k) (hkj : k ≠ j)
    (h1 : 0 < d i k) (h2 : 0 < d k j) : 0 < d i j ∧ d i j ≤ d i k + d k j := by
  obtain ⟨l1, b1, p1, w1⟩ := h.attained i k hi hk hik h1
  obtain ⟨l2, b2, p2, w2⟩ := h.attained k j hk hj hkj h2
  have hp := isPath_append k j l2 l1 i p1 p2
  have hw := pathWeight_append m k j l2 l1 i
  obtain ⟨q1, q2⟩ := h.least i j (l1 ++ k :: l2) hij (isPath_bounds _ i j hp).2.2 hp
  exact ⟨q1, by omega⟩

theorem passSpec_fixed {m : Mat} {n : Nat} {d : Mat} (h : FWInv m n n d) {k : Nat}
    (hk : k < n) : passSpec (fun a b => a + b) k n d = d := by
  have hno : ∀ x y, x < y → y < n → ¬ upd (fun a b => a + b) k d x y := by
    intro x y hxy hy hu
    obtain ⟨q1, q2⟩ := fwInv_triangle h (by omega) hy hk (by omega) hu.1 (Ne.symm hu.2.1)
      hu.2.2.1 hu.2.2.2.1
    have h3 : d x k + d k y < d x y ∨ d x y = 0 := hu.2.2.2.2
    omega
  funext x y
  unfold passSpec
  have c1 : ¬ (x < y ∧ y < n ∧ upd (fun a b => a + b) k d x y) :=
    fun hh => hno x y hh.1 hh.2.1 hh.2.2
  have c2 : ¬ (y < x ∧ x < n ∧ upd (fun a b => a + b) k d y x) :=
    fun hh => hno y x hh.1 hh.2.1 hh.2.2
  rw [if_neg c1, if_neg c2]

theorem fwM_fixed {m : Mat} {n : Nat} {d : Mat} (h : FWInv m n n d) :
    fwM (fun a b => a + b) n d = d := by
  unfold fwM
  apply iter_invariant (fun t : Mat => t = d) _ n _ d rfl
  intro c hc t ht
  rw [ht, passM_eq]
  exact passSpec_fixed h hc

/-- The run for an `int n` in terms of the dimension `n.toNat`: for `n >= 0` the
buffer stores a matrix and the result stores its image, for `n < 0` nothing runs. -/
theorem gfw_int (add : Int → Int → Int) (n : Int) (dm : List Int)
    (hlen : 0 ≤ n → dm.length = n.toNat * n.toNat) :
    ∃ out, loop_k add n.toNat dm = some out ∧
      ((Rep n.toNat dm (view n.toNat dm) ∧ Rep n.toNat out (fwM add n.toNat (view n.toNat dm)))
        ∨ (n.toNat = 0 ∧ out = dm)) := by
  by_cases hn : 0 ≤ n
  · have hrep : Rep n.toNat dm (view n.toNat dm) := ⟨hlen hn, rfl⟩
    obtain ⟨out, h1, h2⟩ := loop_k_sim add hrep
    exact ⟨out, h1, Or.inl ⟨hrep, h2⟩⟩
  · have h0 : n.toNat = 0 := by omega
    refine ⟨dm, ?_, Or.inr ⟨h0, rfl⟩⟩
    rw [h0]
    rfl

/-- For a valid input the run succeeds and its result stores a matrix satisfying
the invariant of the outer loop for all `n` pivots. -/
theorem gfw_valid (n : Nat) (dm : List Int) (hlen : dm.length = n * n)
    (hsym : ∀ i, i < n → ∀ j, j < n → entry n dm i j = entry n dm j i)
    (hnn : ∀ x ∈ dm, 0 ≤ x) :
    ∃ out d, graphs_floyd_warshall n dm = some out ∧ Rep n out d ∧
      FWInv (view n dm) n n d := by
  obtain ⟨out, h1, h2⟩ := gfw_rep (fun a b => a + b) n (show Rep n dm (view n dm) from ⟨hlen, rfl⟩)
  exact ⟨out, _, h1, h2,
    fwInv_fwM (view_symm hlen (fun i j hi hj => hsym i hi j hj)) (view_nonneg hlen hnn)⟩

/-! ## The contract -/

/-- C1: for a symmetric non-negative `n × n` input and every pair `i ≠ j`, the output
entry `(i, j)` is 0 when no path of positive input edges joins `i` and `j`; otherwise
it is the weight of a path from `i` to `j` without repeated nodes, and no path from
`i` to `j` (with or without repeated nodes) weighs less. -/
theorem floyd_warshall_shortest_paths (n : Nat) (dm : List Int) (hlen : dm.length = n * n)
    (hsym : ∀ i, i < n → ∀ j, j < n → entry n dm i j = entry n dm j i)
    (hnn : ∀ x ∈ dm, 0 ≤ x) :
    ∃ out, graphs_floyd_warshall n dm = some out ∧
      ∀ i, i < n → ∀ j, j < n → i ≠ j →
        ((¬ ∃ l, IsPath (view n dm) n i l j) → entry n out i j = some 0) ∧
        ((∃ l, IsPath (view n dm) n i l j) →
          ∃ l0, IsPath (view n dm) n i l0 j ∧ (i :: l0 ++ [j]).Nodup ∧
            entry n out i j = some (pathWeight (view n dm) i l0 j) ∧
            ∀ l, IsPath (view n dm) n i l j →
              pathWeight (view n dm) i l0 j ≤ pathWeight (view n dm) i l j) := by
  obtain ⟨out, d, hrun, hrep, hinv⟩ := gfw_valid n dm hlen hsym hnn
  refine ⟨out, hrun, ?_⟩
  intro i hi j hj hij
  rw [entry_of_rep hrep hi hj]
  have hleast : ∀ l, IsPath (view n dm) n i l j →
      0 < d i j ∧ d i j ≤ pathWeight (view n dm) i l j :=
    fun l hp => hinv.least i j l hij (isPath_bounds l i j hp).2.2 hp
  constructor
  · intro hno
    have h0 := hinv.nonneg i j hij
    by_cases hpos : 0 < d i j
    · obtain ⟨l, -, hp, -⟩ := hinv.attained i j hi hj hij hpos
      exact absurd ⟨l, hp⟩ hno
    · have : d i j = 0 := by omega
      rw [this]
  · rintro ⟨l, hp⟩
    obtain ⟨l1, -, hp1, hw1⟩ := hinv.attained i j hi hj hij (hleast l hp).1
    obtain ⟨l0, hp0, hnd, hw0⟩ := path_simple j l1 i hp1 hij
    have heq : pathWeight (view n dm) i l0 j = d i j := by
      have := (hleast l0 hp0).2
      omega
    refine ⟨l0, hp0, hnd, by rw [heq], ?_⟩
    intro l2 hp2
    rw [heq]
    exact (hleast l2 hp2).2

/-- C1, witness: the contract applied to the chain 0 - 1 - 2 with unit weights. -/
theorem floyd_warshall_shortest_paths_witness :
    ∃ out, graphs_floyd_warshall (3 : Nat) [0, 1, 0, 1, 0, 1, 0, 1, 0] = some out ∧
      ∀ i, i < 3 → ∀ j, j < 3 → i ≠ j →
        ((¬ ∃ l, IsPath (view 3 [0, 1, 0, 1, 0, 1, 0, 1, 0]) 3 i l j) →
          entry 3 out i j = some 0) ∧
        ((∃ l, IsPath (view 3 [0, 1, 0, 1, 0, 1, 0, 1, 0]) 3 i l j) →
          ∃ l0, IsPath (view 3 [0, 1, 0, 1, 0, 1, 0, 1, 0]) 3 i l0 j ∧
            (i :: l0 ++ [j]).Nodup ∧
            entry 3 out i j = some (pathWeight (view 3 [0, 1, 0, 1, 0, 1, 0, 1, 0]) i l0 j) ∧
            ∀ l, IsPath (view 3 [0, 1, 0, 1, 0, 1, 0, 1, 0]) 3 i l j →
              pathWeight (view 3 [0, 1, 0, 1, 0, 1, 0, 1, 0]) i l0 j
                ≤ pathWeight (view 3 [0, 1, 0, 1, 0, 1, 0, 1, 0]) i l j) :=
  floyd_warshall_shortest_paths 3 [0, 1, 0, 1, 0, 1, 0, 1, 0] (by decide) (by decide)
    (by decide)

/-- C3: for a valid input (symmetric, non-negative) a second run on the output of
the first run returns that output unchanged. -/
theorem floyd_warshall_idempotent (n : Nat) (dm : List Int) (hlen : dm.length = n * n)
    (hsym : ∀ i, i < n → ∀ j, j < n → entry n dm i j = entry n dm j i)
    (hnn : ∀ x ∈ dm, 0 ≤ x) :
    ∃ out, graphs_floyd_warshall n dm = some out ∧
      graphs_floyd_warshall n out = some out := by
  obtain ⟨out, d, hrun, hrep, hinv⟩ := gfw_valid n dm hlen hsym hnn
  refine ⟨out, hrun, ?_⟩
  obtain ⟨out2, hrun2, hrep2⟩ := gfw_rep (fun a b => a + b) n hrep
  rw [fwM_fixed hinv] at hrep2
  have : out2 = out := rep_unique hrep2 hrep
  rw [this] at hrun2
  exact hrun2

/-- C3, witness: idempotence on the 4-node example with a long direct edge. -/
theorem floyd_warshall_idempotent_witness :
    ∃ out, graphs_floyd_warshall (4 : Nat) [0, 2, 0, 10, 2, 0, 2, 0, 0, 2, 0, 2, 10, 0, 2, 0]
        = some out ∧
      graphs_floyd_warshall (4 : Nat) out = some out :=
  floyd_warshall_idempotent 4 [0, 2, 0, 10, 2, 0, 2, 0, 0, 2, 0, 2, 10, 0, 2, 0]
    (by decide) (by decide) (by decide)

/-- C4: for a valid input and every pair `i ≠ j`, the output entry `(i, j)` is 0 if
and only if no path of positive input edges joins `i` and `j`. -/
theorem floyd_warshall_sentinel (n : Nat) (dm : List Int) (hlen : dm.length = n * n)
    (hsym : ∀ i, i < n → ∀ j, j < n → entry n dm i j = entry n dm j i)
    (hnn : ∀ x ∈ dm, 0 ≤ x) :
    ∃ out, graphs_floyd_warshall n dm = some out ∧
      ∀ i, i < n → ∀ j, j < n → i ≠ j →
        (entry n out i j = some 0 ↔ ¬ ∃ l, IsPath (view n dm) n i l j) := by
  obtain ⟨out, d, hrun, hrep, hinv⟩ := gfw_valid n dm hlen hsym hnn
  refine ⟨out, hrun, ?_⟩
  intro i hi j hj hij
  rw [entry_of_rep hrep hi hj]
  constructor
  · rintro h0 ⟨l, hp⟩
    have h1 := (hinv.least i j l hij (isPath_bounds l i j hp).2.2 hp).1
    have h2 : d i j = 0 := Option.some.inj h0
    omega
  · intro hno
    have h0 := hinv.nonneg i j hij
    by_cases hpos : 0 < d i j
    · obtain ⟨l, -, hp, -⟩ := hinv.attained i j hi hj hij hpos
      exact absurd ⟨l, hp⟩ hno
    · have : d i j = 0 := by omega
      rw [this]

/-- C4, witness: two components, 0 - 1 and the isolated node 2. -/
theorem floyd_warshall_sentinel_witness :
    ∃ out, graphs_floyd_warshall (3 : Nat) [0, 5, 0, 5, 0, 0, 0, 0, 0] = some out ∧
      ∀ i, i < 3 → ∀ j, j < 3 → i ≠ j →
        (entry 3 out i j = some 0 ↔
          ¬ ∃ l, IsPath (view 3 [0, 5, 0, 5, 0, 0, 0, 0, 0]) 3 i l j) :=
  floyd_warshall_sentinel 3 [0, 5, 0, 5, 0, 0, 0, 0, 0] (by decide) (by decide) (by decide)

/-- C10: on the 4-node matrix with edges `(0,1) = (1,2) = (2,3) = 2` and `(0,3) = 10`
the run returns the matrix with `(0,3) = (3,0) = 6`, `(0,2) = (2,0) = 4`,
`(1,3) = (3,1) = 4`, and the weight-2 edges and the diagonal unchanged. -/
theorem floyd_warshall_example3 :
    graphs_floyd_warshall 4 [0, 2, 0, 10,  2, 0, 2, 0,  0, 2, 0, 2,  10, 0, 2, 0]
      = some [0, 2, 4, 6,  2, 0, 2, 4,  4, 2, 0, 2,  6, 4, 2, 0] := by
  decide

/-! ## Further properties of the contract -/

theorem passSpec_known (k n : Nat) {a d : Mat} (h : ∀ x y, d x y = a x y ∨ 0 < d x y) :
    ∀ x y, passSpec (fun a b => a + b) k n d x y = a x y
      ∨ 0 < passSpec (fun a b => a + b) k n d x y := by
  intro x y
  unfold passSpec
  by_cases c1 : x < y ∧ y < n ∧ upd (fun a b => a + b) k d x y
  · rw [if_pos c1]
    have h1 := c1.2.2.2.2.1
    have h2 := c1.2.2.2.2.2.1
    right
    show 0 < d x k + d k y
    omega
  · rw [if_neg c1]
    by_cases c2 : y < x ∧ x < n ∧ upd (fun a b => a + b) k d y x
    · rw [if_pos c2]
      have h1 := c2.2.2.2.2.1
      have h2 := c2.2.2.2.2.2.1
      right
      show 0 < d y k + d k x
      omega
    · rw [if_neg c2]
      exact h x y

theorem fwM_known (n : Nat) (a : Mat) :
    ∀ x y, fwM (fun a b => a + b) n a x y = a x y ∨ 0 < fwM (fun a b => a + b) n a x y := by
  unfold fwM
  apply iter_invariant (fun d : Mat => ∀ x y, d x y = a x y ∨ 0 < d x y) _ n _ a
    (fun x y => Or.inl rfl)
  intro c _ t ht
  rw [passM_eq]
  exact passSpec_known c n ht

/-- C11: on the 3-node chain `(0,1) = 1`, `(1,2) = 1` with `(0,2)` unknown the run
sets the entries `(0,2)` and `(2,0)` to 2 and leaves every other entry unchanged. -/
theorem floyd_warshall_example1 :
    graphs_floyd_warshall 3 [0, 1, 0,  1, 0, 1,  0, 1, 0]
      = some [0, 1, 2,  1, 0, 1,  2, 1, 0] := by
  decide

/-- C13: for every `int n <= 1` (1, 0 or negative) and every buffer, of any length and
content, the run returns the buffer unchanged. -/
theorem floyd_warshall_degenerate (n : Int) (hn : n ≤ 1) (dm : List Int) :
    graphs_floyd_warshall n dm = some dm := by
  have h : n.toNat = 0 ∨ n.toNat = 1 := by omega
  unfold graphs_floyd_warshall
  rcases h with h | h
  · rw [h]
    rfl
  · rw [h]
    rfl

/-- C13, witness: `n = 1` with a one-entry buffer. -/
theorem floyd_warshall_degenerate_witness :
    graphs_floyd_warshall 1 [7] = some [7] :=
  floyd_warshall_degenerate 1 (by decide) [7]

/-- C16: for a valid input and pairwise different nodes `i`, `j`, `k`, if the output
entries `(i,k)` and `(k,j)` are positive then the output entry `(i,j)` is positive and
at most their sum. -/
theorem floyd_warshall_triangle_distinct (n : Nat) (dm : List Int)
    (hlen : dm.length = n * n)
    (hsym : ∀ i, i < n → ∀ j, j < n → entry n dm i j = entry n dm j i)
    (hnn : ∀ x ∈ dm, 0 ≤ x) :
    ∃ out, graphs_floyd_warshall n dm = some out ∧
      ∀ i, i < n → ∀ j, j < n → ∀ k, k < n → i ≠ j → i ≠ k → k ≠ j → ∀ a b c,
        entry n out i k = some a → entry n out k j = some b → entry n out i j = some c →
        0 < a → 0 < b → 0 < c ∧ c ≤ a + b := by
  obtain ⟨out, d, hrun, hrep, hinv⟩ := gfw_valid n dm hlen hsym hnn
  refine ⟨out, hrun, ?_⟩
  intro i hi j hj k hk hij hik hkj a b c ha hb hc hpa hpb
  rw [entry_of_rep hrep hi hk] at ha
  rw [entry_of_rep hrep hk hj] at hb
  rw [entry_of_rep hrep hi hj] at hc
  have ea : d i k = a := Option.some.inj ha
  have eb : d k j = b := Option.some.inj hb
  have ec : d i j = c := Option.some.inj hc
  have := fwInv_triangle hinv hi hj hk hij hik hkj (by omega) (by omega)
  omega

/-- C16, witness: the triangle inequality on the 4-node example with a long direct
edge. -/
theorem floyd_warshall_triangle_distinct_witness :
    ∃ out, graphs_floyd_warshall (4 : Nat) [0, 2, 0, 10, 2, 0, 2, 0, 0, 2, 0, 2, 10, 0, 2, 0]
        = some out ∧
      ∀ i, i < 4 → ∀ j, j < 4 → ∀ k, k < 4 → i ≠ j → i ≠ k → k ≠ j → ∀ a b c,
        entry 4 out i k = some a → entry 4 out k j = some b → entry 4 out i j = some c →
        0 < a → 0 < b → 0 < c ∧ c ≤ a + b :=
  floyd_warshall_triangle_distinct 4 [0, 2, 0, 10, 2, 0, 2, 0, 0, 2, 0, 2, 10, 0, 2, 0]
    (by decide) (by decide) (by decide)

/-- C18: on the non-negative, non-symmetric `3 × 3` input whose only nonzero entries
are `(1,0) = 1` and `(0,2) = 1` the run ends with `(1,0) = 3`: a positive entry has
grown, because the write to `(j,i)` in line 37 is not guarded by a comparison with
the old value of `(j,i)`. -/
theorem floyd_warshall_asymmetric_growth :
    entry 3 [0, 0, 1,  1, 0, 0,  0, 0, 0] 1 0 ≠ entry 3 [0, 0, 1,  1, 0, 0,  0, 0, 0] 0 1 ∧
    (∀ x ∈ [0, 0, 1,  1, 0, 0,  0, 0, (0 : Int)], 0 ≤ x) ∧
    graphs_floyd_warshall 3 [0, 0, 1,  1, 0, 0,  0, 0, 0]
      = some [0, 3, 1,  3, 0, 2,  0, 2, 0] ∧
    entry 3 [0, 0, 1,  1, 0, 0,  0, 0, 0] 1 0 = some 1 ∧
    entry 3 [0, 3, 1,  3, 0, 2,  0, 2, 0] 1 0 = some 3 := by
  decide

/-- C19: for every `int n` and every buffer (of length `n*n` when `n >= 0`, of any
content) each output entry equals the input entry or is positive; so when all input
entries are non-negative, every output entry is non-negative and every positive input
entry is positive in the output. -/
theorem floyd_warshall_known_stays_known (n : Int) (dm : List Int)
    (hlen : 0 ≤ n → dm.length = n.toNat * n.toNat) :
    ∃ out, graphs_floyd_warshall n dm = some out ∧
      (∀ i, i < n.toNat → ∀ j, j < n.toNat → ∃ v w, entry n.toNat dm i j = some v ∧
        entry n.toNat out i j = some w ∧ (w = v ∨ 0 < w)) ∧
      ((∀ x ∈ dm, 0 ≤ x) →
        ∀ i, i < n.toNat → ∀ j, j < n.toNat → ∃ v w, entry n.toNat dm i j = some v ∧
          entry n.toNat out i j = some w ∧ 0 ≤ w ∧ (0 < v → 0 < w)) := by
  obtain ⟨out, hrun, h⟩ := gfw_int (fun a b => a + b) n dm hlen
  refine ⟨out, hrun, ?_⟩
  have key : ∀ i, i < n.toNat → ∀ j, j < n.toNat → ∃ v w, entry n.toNat dm i j = some v ∧
      entry n.toNat out i j = some w ∧ (w = v ∨ 0 < w) ∧ ((∀ x ∈ dm, 0 ≤ x) → 0 ≤ v) := by
    intro i hi j hj
    rcases h with ⟨h1, h2⟩ | ⟨h0, -⟩
    · exact ⟨_, _, entry_of_rep h1 hi hj, entry_of_rep h2 hi hj, fwM_known _ _ i j,
        fun hnn => view_nonneg h1.1 hnn i j⟩
    · omega
  constructor
  · intro i hi j hj
    obtain ⟨v, w, e1, e2, e3, -⟩ := key i hi j hj
    exact ⟨v, w, e1, e2, e3⟩
  · intro hnn i hi j hj
    obtain ⟨v, w, e1, e2, e3, e4⟩ := key i hi j hj
    have hv := e4 hnn
    refine ⟨v, w, e1, e2, ?_, ?_⟩
    · rcases e3 with e3 | e3 <;> omega
    · intro hpos
      rcases e3 with e3 | e3 <;> omega

/-- C19, witness: a non-negative input that is not symmetric. -/
theorem floyd_warshall_known_stays_known_witness :
    ∃ out, graphs_floyd_warshall 3 [0, 0, 1, 1, 0, 0, 0, 0, 0] = some out ∧
      (∀ i, i < (3 : Int).toNat → ∀ j, j < (3 : Int).toNat → ∃ v w,
        entry (3 : Int).toNat [0, 0, 1, 1, 0, 0, 0, 0, 0] i j = some v ∧
        entry (3 : Int).toNat out i j = some w ∧ (w = v ∨ 0 < w)) ∧
      ((∀ x ∈ [0, 0, 1, 1, 0, 0, 0, 0, (0 : Int)], 0 ≤ x) →
        ∀ i, i < (3 : Int).toNat → ∀ j, j < (3 : Int).toNat → ∃ v w,
          entry (3 : Int).toNat [0, 0, 1, 1, 0, 0, 0, 0, 0] i j = some v ∧
          entry (3 : Int).toNat out i j = some w ∧ 0 ≤ w ∧ (0 < v → 0 < w)) :=
  floyd_warshall_known_stays_known 3 [0, 0, 1, 1, 0, 0, 0, 0, 0] (fun _ => rfl)

/-! ## The state after the first passes -/

theorem loop_k_eq_upto (add : Int → Int → Int) (n : Nat) (dm : List Int) :
    loop_k add n dm = loop_k_upto add n n dm := rfl

theorem loop_k_upto_sim (add : Int → Int → Int) {n c : Nat} (hc : c ≤ n)
    {dm : List Int} {a : Mat} (h : Rep n dm a) :
    ∃ st, loop_k_upto add n c dm = some st ∧
      Rep n st (iter (fun k a => passM add n k a) c a) := by
  unfold loop_k_upto
  apply forLoop_sim (Rep n) _ _ c _ dm a h
  intro k hk s t hst
  exact loop_j_sim add (by omega) hst

/-- Every path between two different nodes contains a path without repeated nodes
that weighs no more and uses only intermediate nodes of the given path. -/
theorem path_simple_sub {m : Mat} {n : Nat} (j : Nat) (l : List Nat) :
    ∀ i : Nat, IsPath m n i l j → i ≠ j →
      ∃ l0, IsPath m n i l0 j ∧ (i :: l0 ++ [j]).Nodup ∧ (∀ v ∈ l0, v ∈ l) ∧
        pathWeight m i l0 j ≤ pathWeight m i l j := by
  induction l with
  | nil =>
    intro i hp hij
    exact ⟨[], hp, by simpa using hij, by simp, Int.le_refl _⟩
  | cons v l ih =>
    intro i hp hij
    have hiv : i ≠ v := hp.1.2.2.1
    have hmiv : 0 < m i v := hp.1.2.2.2
    have hrest := pathWeight_pos l v j hp.2
    by_cases hvj : v = j
    · subst hvj
      refine ⟨[], hp.1, by simpa using hij, by simp, ?_⟩
      simp only [pathWeight]
      omega
    · obtain ⟨l0, p0, nd0, sub0, w0⟩ := ih v hp.2 hvj
      by_cases hil : i ∈ l0
      · obtain ⟨s, t, rfl⟩ := List.append_of_mem hil
        obtain ⟨p1, p2⟩ := isPath_split i j t s v p0
        have hpos := pathWeight_pos s v i p1
        refine ⟨t, p2, ?_, ?_, ?_⟩
        · have hsub : (i :: t ++ [j]).Sublist (v :: (s ++ i :: t) ++ [j]) := by
            simp
          exact nd0.sublist hsub
        · intro w hw
          exact List.mem_cons_of_mem v (sub0 w (by simp [hw]))
        · rw [pathWeight_append] at w0
          simp only [pathWeight]
          omega
      · refine ⟨v :: l0, ⟨hp.1, p0⟩, ?_, ?_, ?_⟩
        · have h1 : i ∉ v :: l0 ++ [j] := by
            simp only [List.cons_append, List.mem_cons, List.mem_append, List.mem_singleton,
              not_or]
            exact ⟨hiv, hil, by simpa using hij⟩
          exact List.nodup_cons.2 ⟨h1, nd0⟩
        · intro w hw
          rcases List.mem_cons.1 hw with rfl | hw
          · exact List.mem_cons_self _ _
          · exact List.mem_cons_of_mem v (sub0 w hw)
        · simp only [pathWeight]
          omega

/-- For a valid input the first `c` passes succeed and leave a buffer that stores a
matrix satisfying the invariant of the outer loop for `c` pivots. -/
theorem upto_valid (n : Nat) (dm : List Int) (hlen : dm.length = n * n)
    (hsym : ∀ i, i < n → ∀ j, j < n → entry n dm i j = entry n dm j i)
    (hnn : ∀ x ∈ dm, 0 ≤ x) (c : Nat) (hc : c ≤ n) :
    ∃ st d, loop_k_upto (fun a b => a + b) n c dm = some st ∧ Rep n st d ∧
      FWInv (view n dm) n c d := by
  obtain ⟨st, h1, h2⟩ := loop_k_upto_sim (fun a b => a + b) hc
    (show Rep n dm (view n dm) from ⟨hlen, rfl⟩)
  exact ⟨st, _, h1, h2,
    fwInv_iter (view_symm hlen (fun i j hi hj => hsym i hi j hj)) (view_nonneg hlen hnn) c hc⟩

/-- C14: for a valid input and every pivot `k < n`, the passes for the pivots `0..k`
succeed, and afterwards every entry `(i, j)` with `i ≠ j` is 0 when no path from `i` to
`j` has all its intermediate nodes in `0..k`; otherwise it is the weight of such a path
(one without repeated nodes), and no such path weighs less. -/
theorem floyd_warshall_outer_invariant (n : Nat) (dm : List Int) (hlen : dm.length = n * n)
    (hsym : ∀ i, i < n → ∀ j, j < n → entry n dm i j = entry n dm j i)
    (hnn : ∀ x ∈ dm, 0 ≤ x) (k : Nat) (hk : k < n) :
    ∃ st, loop_k_upto (fun a b => a + b) n (k + 1) dm = some st ∧
      ∀ i, i < n → ∀ j, j < n → i ≠ j →
        ((¬ ∃ l, (∀ v ∈ l, v ≤ k) ∧ IsPath (view n dm) n i l j) →
          entry n st i j = some 0) ∧
        ((∃ l, (∀ v ∈ l, v ≤ k) ∧ IsPath (view n dm) n i l j) →
          ∃ l0, (∀ v ∈ l0, v ≤ k) ∧ IsPath (view n dm) n i l0 j ∧ (i :: l0 ++ [j]).Nodup ∧
            entry n st i j = some (pathWeight (view n dm) i l0 j) ∧
            ∀ l, (∀ v ∈ l, v ≤ k) → IsPath (view n dm) n i l j →
              pathWeight (view n dm) i l0 j ≤ pathWeight (view n dm) i l j) := by
  obtain ⟨st, d, hrun, hrep, hinv⟩ := upto_valid n dm hlen hsym hnn (k + 1) hk
  refine ⟨st, hrun, ?_⟩
  intro i hi j hj hij
  rw [entry_of_rep hrep hi hj]
  have hleast : ∀ l, (∀ v ∈ l, v ≤ k) → IsPath (view n dm) n i l j →
      0 < d i j ∧ d i j ≤ pathWeight (view n dm) i l j :=
    fun l hb hp => hinv.least i j l hij (fun v hv => Nat.lt_succ_of_le (hb v hv)) hp
  constructor
  · intro hno
    have h0 := hinv.nonneg i j hij
    by_cases hpos : 0 < d i j
    · obtain ⟨l, hb, hp, -⟩ := hinv.attained i j hi hj hij hpos
      exact absurd ⟨l, fun v hv => Nat.le_of_lt_succ (hb v hv), hp⟩ hno
    · have : d i j = 0 := by omega
      rw [this]
  · rintro ⟨l, hb, hp⟩
    obtain ⟨l1, hb1, hp1, hw1⟩ := hinv.attained i j hi hj hij (hleast l hb hp).1
    obtain ⟨l0, hp0, hnd, hsub, hw0⟩ := path_simple_sub j l1 i hp1 hij
    have hb0 : ∀ v ∈ l0, v ≤ k := fun v hv => Nat.le_of_lt_succ (hb1 v (hsub v hv))
    have heq : pathWeight (view n dm) i l0 j = d i j := by
      have := (hleast l0 hb0 hp0).2
      omega
    refine ⟨l0, hb0, hp0, hnd, by rw [heq], ?_⟩
    intro l2 hb2 hp2
    rw [heq]
    exact (hleast l2 hb2 hp2).2

/-- C14, witness: the 4-node example after the passes for the pivots 0 and 1. -/
theorem floyd_warshall_outer_invariant_witness :
    ∃ st, loop_k_upto (fun a b => a + b) 4 (1 + 1)
        [0, 2, 0, 10, 2, 0, 2, 0, 0, 2, 0, 2, 10, 0, 2, 0] = some st ∧
      ∀ i, i < 4 → ∀ j, j < 4 → i ≠ j →
        ((¬ ∃ l, (∀ v ∈ l, v ≤ 1) ∧
            IsPath (view 4 [0, 2, 0, 10, 2, 0, 2, 0, 0, 2, 0, 2, 10, 0, 2, 0]) 4 i l j) →
          entry 4 st i j = some 0) ∧
        ((∃ l, (∀ v ∈ l, v ≤ 1) ∧
            IsPath (view 4 [0, 2, 0, 10, 2, 0, 2, 0, 0, 2, 0, 2, 10, 0, 2, 0]) 4 i l j) →
          ∃ l0, (∀ v ∈ l0, v ≤ 1) ∧
            IsPath (view 4 [0, 2, 0, 10, 2, 0, 2, 0, 0, 2, 0, 2, 10, 0, 2, 0]) 4 i l0 j ∧
            (i :: l0 ++ [j]).Nodup ∧
            entry 4 st i j = some
              (pathWeight (view 4 [0, 2, 0, 10, 2, 0, 2, 0, 0, 2, 0, 2, 10, 0, 2, 0]) i l0 j) ∧
            ∀ l, (∀ v ∈ l, v ≤ 1) →
              IsPath (view 4 [0, 2, 0, 10, 2, 0, 2, 0, 0, 2, 0, 2, 10, 0, 2, 0]) 4 i l j →
              pathWeight (view 4 [0, 2, 0, 10, 2, 0, 2, 0, 0, 2, 0, 2, 10, 0, 2, 0]) i l0 j
                ≤ pathWeight (view 4 [0, 2, 0, 10, 2, 0, 2, 0, 0, 2, 0, 2, 10, 0, 2, 0]) i l j) :=
  floyd_warshall_outer_invariant 4 [0, 2, 0, 10, 2, 0, 2, 0, 0, 2, 0, 2, 10, 0, 2, 0]
    (by decide) (by decide) (by decide) 1 (by decide)

/-! ## A pass does not depend on the order of the visits -/

theorem wrap32_eq {x : Int} (h0 : 0 ≤ x) (h1 : x ≤ 2 ^ 31 - 1) : wrap32 x = x := by
  unfold wrap32
  have e1 : (2 : Int) ^ 31 = 2147483648 := by norm_num
  have e2 : (2 : Int) ^ 32 = 4294967296 := by norm_num
  rw [e1] at h1 ⊢
  rw [e2]
  omega

theorem pathWeight_le {m : Mat} {n : Nat} {W : Int}
    (hW : ∀ x y, x < n → y < n → x ≠ y → m x y ≤ W) : ∀ (l : List Nat) (i j : Nat),
    IsPath m n i l j → pathWeight m i l j ≤ ((l.length : Int) + 1) * W
  | [], i, j, h => by
    have := hW i j h.1 h.2.1 h.2.2.1
    simp only [pathWeight, List.length_nil]
    omega
  | v :: l, i, j, h => by
    have h1 := hW i v h.1.1 h.1.2.1 h.1.2.2.1
    have h2 := pathWeight_le hW l v j h.2
    simp only [pathWeight, List.length_cons]
    push_cast
    have e : ((l.length : Int) + 1 + 1) * W = W + ((l.length : Int) + 1) * W := by ring
    rw [e]
    omega

theorem nodup_length_le {n : Nat} {l : List Nat} (hnd : l.Nodup) (hb : ∀ v ∈ l, v < n) :
    l.length ≤ n := by
  have h := (List.subperm_of_subset hnd
    (fun v hv => List.mem_range.2 (hb v hv))).length_le
  simpa using h

/-- Under the invariant, with all edges of weight at most `W`, every positive
off-diagonal entry is at most `(n - 1) * W`. -/
theorem fwInv_bound {m : Mat} {n k : Nat} {d : Mat} {W : Int} (h : FWInv m n k d)
    (hW : ∀ x y, x < n → y < n → x ≠ y → m x y ≤ W) {i j : Nat} (hi : i < n) (hj : j < n)
    (hij : i ≠ j) (hpos : 0 < d i j) : d i j ≤ ((n : Int) - 1) * W := by
  obtain ⟨l1, hb1, hp1, hw1⟩ := h.attained i j hi hj hij hpos
  obtain ⟨l0, hp0, hnd, hsub, hw0⟩ := path_simple_sub j l1 i hp1 hij
  have hle := (h.least i j l0 hij (fun v hv => hb1 v (hsub v hv)) hp0).2
  have hwl := pathWeight_le hW l0 i j hp0
  have hlen : (i :: l0 ++ [j]).length ≤ n := by
    apply nodup_length_le hnd
    intro v hv
    obtain ⟨b1, b2, b3⟩ := isPath_bounds l0 i j hp0
    simp only [List.cons_append, List.mem_cons, List.mem_append, List.not_mem_nil,
      or_false] at hv
    rcases hv with rfl | hv | rfl
    · exact b1
    · exact b3 v hv
    · exact b2
  simp only [List.cons_append, List.length_cons, List.length_append, List.length_nil] at hlen
  have hWpos : 0 < W := by
    have h1 := pathWeight_pos l0 i j hp0
    have h2 : 0 < (l0.length : Int) + 1 := by omega
    by_contra hneg
    have h3 : ((l0.length : Int) + 1) * W ≤ 0 :=
      Int.mul_nonpos_of_nonneg_of_nonpos (by omega) (by omega)
    omega
  have hmul : ((l0.length : Int) + 1) * W ≤ ((n : Int) - 1) * W :=
    Int.mul_le_mul_of_nonneg_right (by omega) (by omega)
  omega

theorem passSpec_congr_add (add1 add2 : Int → Int → Int) (k n : Nat) (d : Mat)
    (h : ∀ x y, x < n → y < n → x ≠ k → y ≠ k → 0 < d x k → 0 < d k y →
      add1 (d x k) (d k y) = add2 (d x k) (d k y)) :
    passSpec add1 k n d = passSpec add2 k n d := by
  have hu : ∀ x y, x < n → y < n → (upd add1 k d x y ↔ upd add2 k d x y) := by
    intro x y hx hy
    unfold upd
    constructor
    · rintro ⟨h1, h2, h3, h4, h5⟩
      exact ⟨h1, h2, h3, h4, by rw [← h x y hx hy h1 h2 h3 h4]; exact h5⟩
    · rintro ⟨h1, h2, h3, h4, h5⟩
      exact ⟨h1, h2, h3, h4, by rw [h x y hx hy h1 h2 h3 h4]; exact h5⟩
  funext x y
  unfold passSpec
  by_cases c1 : x < y ∧ y < n ∧ upd add1 k d x y
  · have hx : x < n := by omega
    have c2 : x < y ∧ y < n ∧ upd add2 k d x y := ⟨c1.1, c1.2.1, (hu x y hx c1.2.1).1 c1.2.2⟩
    rw [if_pos c1, if_pos c2]
    exact h x y hx c1.2.1 c1.2.2.1 c1.2.2.2.1 c1.2.2.2.2.1 c1.2.2.2.2.2.1
  · have c2 : ¬ (x < y ∧ y < n ∧ upd add2 k d x y) :=
      fun hh => c1 ⟨hh.1, hh.2.1, (hu x y (by omega) hh.2.1).2 hh.2.2⟩
    rw [if_neg c1, if_neg c2]
    by_cases c3 : y < x ∧ x < n ∧ upd add1 k d y x
    · have hy : y < n := by omega
      have c4 : y < x ∧ x < n ∧ upd add2 k d y x := ⟨c3.1, c3.2.1, (hu y x hy c3.2.1).1 c3.2.2⟩
      rw [if_pos c3, if_pos c4]
      exact h y x hy c3.2.1 c3.2.2.1 c3.2.2.2.1 c3.2.2.2.2.1 c3.2.2.2.2.2.1
    · have c4 : ¬ (y < x ∧ x < n ∧ upd add2 k d y x) :=
        fun hh => c3 ⟨hh.1, hh.2.1, (hu y x (by omega) hh.2.1).2 hh.2.2⟩
      rw [if_neg c3, if_neg c4]

theorem innerSpec_col (add : Int → Int → Int) (k j c : Nat) (hjk : j ≠ k) (b : Mat) (x : Nat) :
    innerSpec add k j c b x k = b x k := by
  unfold innerSpec upd
  have hkj : k ≠ j := Ne.symm hjk
  simp [hkj]

theorem innerSpec_row (add : Int → Int → Int) (k j c : Nat) (hjk : j ≠ k) (b : Mat) (y : Nat) :
    innerSpec add k j c b k y = b k y := by
  unfold innerSpec upd
  have hkj : k ≠ j := Ne.symm hjk
  simp [hkj]

theorem state_before_sim (add : Int → Int → Int) {n k j i : Nat} (hk : k < n) (hj : j < n)
    (hij : i ≤ j) (hjk : j ≠ k) {dm : List Int} {a : Mat} (h : Rep n dm a) :
    ∃ s, state_before add n k j i dm = some s ∧
      Rep n s (innerSpec add k j i
        (passSpec add k j (iter (fun k a => passM add n k a) k a))) := by
  obtain ⟨s1, h1, r1⟩ := loop_k_upto_sim add (Nat.le_of_lt hk) h
  obtain ⟨s2, h2, r2⟩ := forLoop_sim (Rep n)
    (fun j dm => if j = k then some dm else loop_i add n k j dm)
    (fun j a => if j = k then a else loopIM add k j a) j
    (by
      intro c hc s t hst
      by_cases hck : c = k
      · simp only [hck, if_true]
        exact ⟨s, rfl, hst⟩
      · simp only [hck, if_false]
        exact loop_i_sim add hk (by omega) hst)
    s1 _ r1
  obtain ⟨s3, h3, r3⟩ := forLoop_sim (Rep n)
    (fun i dm => if i = k then some dm else relax add n k j i dm)
    (fun i a => if i = k then a else relaxM add k j i a) i
    (by
      intro c hc s t hst
      by_cases hck : c = k
      · simp only [hck, if_true]
        exact ⟨s, rfl, hst⟩
      · simp only [hck, if_false]
        exact relax_sim add hk hj (by omega) hst)
    s2 _ r2
  rw [iter_pass] at r3
  rw [iter_loopI add k j hjk _ i hij] at r3
  refine ⟨s3, ?_, r3⟩
  unfold state_before
  rw [h1]
  simp only [Option.some_bind]
  rw [h2]
  simp only [Option.some_bind]
  exact h3

/-- With bounded weights every pass gives the same matrix in 32-bit wrap-around
arithmetic as in unbounded arithmetic. -/
theorem iter_pass32 {m : Mat} {n : Nat} {W : Int} (hs : ∀ i j, m i j = m j i)
    (hn : ∀ i j, 0 ≤ m i j) (hW : ∀ x y, x < n → y < n → x ≠ y → m x y ≤ W)
    (hB : 2 * ((n : Int) - 1) * W ≤ 2 ^ 31 - 1) :
    ∀ c, c ≤ n → iter (fun k a => passM (fun a b => wrap32 (a + b)) n k a) c m
      = iter (fun k a => passM (fun a b => a + b) n k a) c m
  | 0, _ => rfl
  | c + 1, hc => by
    have ih := iter_pass32 hs hn hW hB c (Nat.le_of_succ_le hc)
    have hinv := fwInv_iter (n := n) hs hn c (Nat.le_of_succ_le hc)
    show passM (fun a b => wrap32 (a + b)) n c _ = passM (fun a b => a + b) n c _
    rw [ih, passM_eq, passM_eq]
    apply passSpec_congr_add
    intro x y hx hy hxc hyc h1 h2
    have b1 := fwInv_bound hinv hW hx (by omega) hxc h1
    have b2 := fwInv_bound hinv hW (by omega) hy (Ne.symm hyc) h2
    have e : 2 * ((n : Int) - 1) * W = ((n : Int) - 1) * W + ((n : Int) - 1) * W := by ring
    rw [e] at hB
    show wrap32 (_ + _) = _ + _
    exact wrap32_eq (by omega) (by omega)

/-! ## The run on 32-bit `int`s -/

theorem forLoop_congr {σ : Type} (body1 body2 : Nat → σ → Option σ) (b : Nat)
    (h : ∀ c, c < b → ∀ s, body1 c s = body2 c s) (s : σ) :
    forLoop body1 b s = forLoop body2 b s := by
  induction b with
  | zero => rfl
  | succ b ih =>
    simp only [forLoop]
    rw [ih (fun c hc => h c (Nat.lt_succ_of_lt hc))]
    cases forLoop body2 b s with
    | none => rfl
    | some s1 => exact h b (Nat.lt_succ_self b) s1

/-- For `n <= 46340` the index expression `a*n+b` of two nodes does not overflow. -/
theorem idx32_eq {n a b : Nat} (hn : n ≤ 46340) (ha : a < n) (hb : b < n) :
    idx32 a n b = ((a * n + b : Nat) : Int) := by
  have h1 : a * n + b < n * n := idx_lt ha hb
  have h2 : n * n ≤ 46340 * 46340 := Nat.mul_le_mul hn hn
  have e1 : (2 : Int) ^ 31 = 2147483648 := by norm_num
  have h3 : ((a * n : Nat) : Int) = (a : Int) * (n : Int) := by push_cast; rfl
  have h4 : ((a * n + b : Nat) : Int) = (a : Int) * (n : Int) + (b : Int) := by push_cast; rfl
  unfold idx32
  rw [wrap32_eq (x := (a : Int) * (n : Int)) (by rw [← h3]; omega) (by rw [← h3, e1]; omega)]
  rw [wrap32_eq (by rw [← h4]; omega) (by rw [← h4, e1]; omega)]
  exact h4.symm

theorem readInt_cast (dm : List Int) (m : Nat) : readInt dm (m : Int) = readAt dm m := by
  unfold readInt readAt
  rw [if_pos (Int.ofNat_nonneg m), Int.toNat_ofNat]

theorem writeInt_cast (dm : List Int) (m : Nat) (v : Int) :
    writeInt dm (m : Int) v = writeAt dm m v := by
  unfold writeInt writeAt
  rw [Int.toNat_ofNat]
  by_cases h : m < dm.length
  · rw [if_pos ⟨Int.ofNat_nonneg m, h⟩, if_pos h]
  · rw [if_neg (fun hh => h hh.2), if_neg h]

theorem relax32_eq {n k j i : Nat} (hn : n ≤ 46340) (hk : k < n) (hj : j < n) (hi : i < n)
    (dm : List Int) :
    relax32 n k j i dm = relax (fun a b => wrap32 (a + b)) n k j i dm := by
  unfold relax32 relax
  rw [idx32_eq hn hi hk, idx32_eq hn hk hj, idx32_eq hn hi hj, idx32_eq hn hj hi]
  simp only [readInt_cast, writeInt_cast]

theorem loop_i32_eq {n k j : Nat} (hn : n ≤ 46340) (hk : k < n) (hj : j < n)
    (dm : List Int) :
    loop_i32 n k j dm = loop_i (fun a b => wrap32 (a + b)) n k j dm := by
  unfold loop_i32 loop_i
  apply forLoop_congr
  intro c hc s
  by_cases hck : c = k
  · rw [if_pos hck, if_pos hck]
  · rw [if_neg hck, if_neg hck]
    exact relax32_eq hn hk hj (by omega) s

theorem loop_j32_eq {n k : Nat} (hn : n ≤ 46340) (hk : k < n) (dm : List Int) :
    loop_j32 n k dm = loop_j (fun a b => wrap32 (a + b)) n k dm := by
  unfold loop_j32 loop_j
  rw [Int.toNat_ofNat]
  apply forLoop_congr
  intro c hc s
  by_cases hck : c = k
  · rw [if_pos hck, if_pos hck]
  · rw [if_neg hck, if_neg hck]
    exact loop_i32_eq hn hk hc s

/-- For `0 <= n <= 46340` the run on 32-bit `int`s is the run of the loops with
wrap-around sums and exact index arithmetic. -/
theorem gfw32_eq {n : Nat} (hn : n ≤ 46340) (dm : List Int) :
    graphs_floyd_warshall32 n dm = loop_k (fun a b => wrap32 (a + b)) n dm := by
  unfold graphs_floyd_warshall32 loop_k
  rw [Int.toNat_ofNat]
  apply forLoop_congr
  intro c hc s
  exact loop_j32_eq hn hc s

theorem gfw32_rep {n : Nat} (hn : n ≤ 46340) {dm : List Int} {a : Mat} (h : Rep n dm a) :
    ∃ out, graphs_floyd_warshall32 n dm = some out ∧
      Rep n out (fwM (fun a b => wrap32 (a + b)) n a) := by
  rw [gfw32_eq hn]
  exact loop_k_sim _ h

theorem forLoop_fix {σ : Type} (body : Nat → σ → Option σ) (b : Nat) (s : σ)
    (h : ∀ c, c < b → body c s = some s) : forLoop body b s = some s := by
  induction b with
  | zero => rfl
  | succ b ih =>
    simp only [forLoop]
    rw [ih (fun c hc => h c (Nat.lt_succ_of_lt hc))]
    exact h b (Nat.lt_succ_self b)

theorem forLoop_none_mono {σ : Type} (body : Nat → σ → Option σ) (b : Nat) (s : σ)
    (h : forLoop body b s = none) : ∀ c, b ≤ c → forLoop body c s = none := by
  intro c hc
  induction c with
  | zero =>
    have hb : b = 0 := by omega
    subst hb
    exact h
  | succ c ih =>
    by_cases hbc : b = c + 1
    · subst hbc
      exact h
    · simp only [forLoop]
      rw [ih (by omega)]
      rfl

theorem forLoop_none_at {σ : Type} (body : Nat → σ → Option σ) (b : Nat) (s s1 : σ)
    (h1 : forLoop body b s = some s1) (h2 : body b s1 = none) :
    ∀ c, b < c → forLoop body c s = none := by
  have h : forLoop body (b + 1) s = none := by
    simp only [forLoop]
    rw [h1]
    exact h2
  intro c hc
  exact forLoop_none_mono body (b + 1) s h c hc

/-- The run on 32-bit `int`s fails when, after iterations that leave the buffer
unchanged, the iteration `(K, J, 0)` makes an access outside the buffer. -/
theorem gfw32_none (n : Nat) (dm : List Int) (K J : Nat) (hK : K < n) (hJ : J < n)
    (hJK : J ≠ K) (hJ0 : 0 < J) (hK0 : 0 ≠ K)
    (hsafe : ∀ k j i, j < n → i < j → j ≠ k → i ≠ k → (k < K ∨ (k = K ∧ j < J)) →
      relax32 n k j i dm = some dm)
    (hbad : relax32 n K J 0 dm = none) : graphs_floyd_warshall32 n dm = none := by
  unfold graphs_floyd_warshall32
  rw [Int.toNat_ofNat]
  have hinner : ∀ k j, j < n → (k < K ∨ (k = K ∧ j < J)) →
      (if j = k then some dm else loop_i32 n k j dm) = some dm := by
    intro k j hj hkj
    by_cases hjk : j = k
    · rw [if_pos hjk]
    · rw [if_neg hjk]
      unfold loop_i32
      apply forLoop_fix
      intro i hi
      by_cases hik : i = k
      · rw [if_pos hik]
      · rw [if_neg hik]
        exact hsafe k j i hj hi hjk hik hkj
  have hpass : ∀ k, k < K → loop_j32 n k dm = some dm := by
    intro k hk
    unfold loop_j32
    rw [Int.toNat_ofNat]
    apply forLoop_fix
    intro j hj
    exact hinner k j hj (Or.inl hk)
  have hbadpass : loop_j32 n K dm = none := by
    unfold loop_j32
    rw [Int.toNat_ofNat]
    apply forLoop_none_at _ J dm dm
    · apply forLoop_fix
      intro j hj
      exact hinner K j (by omega) (Or.inr ⟨rfl, hj⟩)
    · rw [if_neg hJK]
      unfold loop_i32
      apply forLoop_none_at _ 0 dm dm rfl
      · rw [if_neg hK0]
        exact hbad
      · exact hJ0
    · exact hJ
  apply forLoop_none_at _ K dm dm
  · apply forLoop_fix
    intro k hk
    exact hpass k hk
  · exact hbadpass
  · exact hK

theorem readInt_replicate {L : Nat} {idx : Int} (h0 : 0 ≤ idx) (h1 : idx.toNat < L) :
    readInt (List.replicate L 0) idx = some 0 := by
  unfold readInt
  rw [if_pos h0, List.getElem?_replicate, if_pos h1]

theorem readInt_neg (dm : List Int) {idx : Int} (h : idx < 0) : readInt dm idx = none := by
  unfold readInt
  rw [if_neg (by omega)]

theorem relax32_zero {L : Nat} {n : Int} {k j i : Nat}
    (h1 : 0 ≤ idx32 i n k ∧ (idx32 i n k).toNat < L)
    (h2 : 0 ≤ idx32 k n j ∧ (idx32 k n j).toNat < L) :
    relax32 n k j i (List.replicate L 0) = some (List.replicate L 0) := by
  unfold relax32
  rw [readInt_replicate h1.1 h1.2, readInt_replicate h2.1 h2.2]
  simp only [Option.some_bind]
  rw [if_neg (fun hh => absurd hh.1 (by decide))]

theorem relax32_zero_none {L : Nat} {n : Int} {k j i : Nat}
    (h1 : 0 ≤ idx32 i n k ∧ (idx32 i n k).toNat < L) (h2 : idx32 k n j < 0) :
    relax32 n k j i (List.replicate L 0) = none := by
  unfold relax32
  rw [readInt_replicate h1.1 h1.2, readInt_neg _ h2]
  rfl

/-- At `n = 46341` the index expression `a*n+b` is exact as long as it stays within
the range of a 32-bit `int`. -/
theorem idx32_46341 {a b : Nat} (h : a * 46341 + b ≤ 2147483647) :
    idx32 a (46341 : Nat) b = (a : Int) * 46341 + (b : Int) := by
  have e1 : (2 : Int) ^ 31 = 2147483648 := by norm_num
  have e2 : (2 : Int) ^ 32 = 4294967296 := by norm_num
  unfold idx32 wrap32
  rw [e1, e2]
  push_cast
  omega

/-- On the all-zero buffer of dimension `n = 46341` the run on 32-bit `int`s makes an
access outside the buffer: in the pass for pivot 46340 the index `k*n+j` overflows
at `j = 41708`. -/
theorem gfw32_zero_46341 :
    graphs_floyd_warshall32 (46341 : Nat) (List.replicate (46341 * 46341) 0) = none := by
  apply gfw32_none 46341 _ 46340 41708 (by decide) (by decide) (by decide) (by decide)
    (by decide)
  · intro k j i hj hi hjk hik hkj
    have hb1 : i * 46341 + k ≤ 2147483647 := by omega
    have hb2 : k * 46341 + j ≤ 2147483647 := by omega
    apply relax32_zero
    · rw [idx32_46341 hb1]
      constructor
      · omega
      · omega
    · rw [idx32_46341 hb2]
      constructor
      · omega
      · omega
  · apply relax32_zero_none
    · rw [idx32_46341 (a := 0) (b := 46340) (by decide)]
      constructor
      · decide
      · decide
    · have e1 : (2 : Int) ^ 31 = 2147483648 := by norm_num
      have e2 : (2 : Int) ^ 32 = 4294967296 := by norm_num
      unfold idx32 wrap32
      rw [e1, e2]
      decide

/-- C9, counterexample: the claim fails for `n = 46341` on 32-bit `int`s. On the
all-zero buffer of length `n*n` the loops reach the iteration `k = 46340`, `j = 41708`,
`i = 0`, where `k*n+j = 2147483648` wraps to `-2147483648`, an index outside the
buffer, and the run with `Option`-returning indexing takes the out-of-bounds branch. -/
theorem floyd_warshall_index_overflow :
    (List.replicate (46341 * 46341) (0 : Int)).length = 46341 * 46341 ∧
    idx32 46340 46341 41708 = -2147483648 ∧
    ¬ (0 ≤ idx32 46340 46341 41708 ∧
        idx32 46340 46341 41708 < ((46341 * 46341 : Nat) : Int)) ∧
    graphs_floyd_warshall32 (46341 : Nat) (List.replicate (46341 * 46341) 0) = none := by
  have e1 : (2 : Int) ^ 31 = 2147483648 := by norm_num
  have e2 : (2 : Int) ^ 32 = 4294967296 := by norm_num
  have hidx : idx32 46340 46341 41708 = -2147483648 := by
    unfold idx32 wrap32
    rw [e1, e2]
    decide
  refine ⟨List.length_replicate _ _, hidx, ?_, gfw32_zero_46341⟩
  rw [hidx]
  intro h
  exact absurd h.1 (by decide)

/-- C9, amended: for every `n` with `0 <= n <= 46340` (that is, `n*n <= 2^31 - 1`) and
every buffer of length `n*n`, whatever its contents, in every iteration `(k, j, i)`
that the loops run the four indices `i*n+k`, `k*n+j`, `i*n+j`, `j*n+i`, computed on
32-bit `int`s, lie in `[0, n*n)`, and the run on 32-bit `int`s with `Option`-returning
indexing returns a buffer of the same length: the out-of-bounds branch is never
taken. -/
theorem floyd_warshall_index_safe (n : Nat) (hn : n ≤ 46340) (dm : List Int)
    (hlen : dm.length = n * n) :
    (∀ k, k < n → ∀ j, j < n → ∀ i, i < j → j ≠ k → i ≠ k →
      (0 ≤ idx32 i n k ∧ idx32 i n k < (dm.length : Int)) ∧
      (0 ≤ idx32 k n j ∧ idx32 k n j < (dm.length : Int)) ∧
      (0 ≤ idx32 i n j ∧ idx32 i n j < (dm.length : Int)) ∧
      (0 ≤ idx32 j n i ∧ idx32 j n i < (dm.length : Int))) ∧
    ∃ out, graphs_floyd_warshall32 n dm = some out ∧ out.length = n * n := by
  constructor
  · intro k hk j hj i hij _ _
    have hi : i < n := by omega
    rw [idx32_eq hn hi hk, idx32_eq hn hk hj, idx32_eq hn hi hj, idx32_eq hn hj hi, hlen]
    have h1 := idx_lt hi hk
    have h2 := idx_lt hk hj
    have h3 := idx_lt hi hj
    have h4 := idx_lt hj hi
    refine ⟨⟨?_, ?_⟩, ⟨?_, ?_⟩, ⟨?_, ?_⟩, ⟨?_, ?_⟩⟩ <;> omega
  · obtain ⟨out, h1, h2⟩ := gfw32_rep hn (show Rep n dm (view n dm) from ⟨hlen, rfl⟩)
    exact ⟨out, h1, h2.1⟩

/-- C9, witness: a non-symmetric `3 × 3` buffer with negative values, on which the
loops read and write cells. -/
theorem floyd_warshall_index_safe_witness :
    (∀ k : Nat, k < 3 → ∀ j : Nat, j < 3 → ∀ i : Nat, i < j → j ≠ k → i ≠ k →
      (0 ≤ idx32 i (3 : Nat) k ∧
        idx32 i (3 : Nat) k < (([3, -1, 4, 1, -5, 9, 2, 6, -5] : List Int).length : Int)) ∧
      (0 ≤ idx32 k (3 : Nat) j ∧
        idx32 k (3 : Nat) j < (([3, -1, 4, 1, -5, 9, 2, 6, -5] : List Int).length : Int)) ∧
      (0 ≤ idx32 i (3 : Nat) j ∧
        idx32 i (3 : Nat) j < (([3, -1, 4, 1, -5, 9, 2, 6, -5] : List Int).length : Int)) ∧
      (0 ≤ idx32 j (3 : Nat) i ∧
        idx32 j (3 : Nat) i < (([3, -1, 4, 1, -5, 9, 2, 6, -5] : List Int).length : Int))) ∧
    ∃ out, graphs_floyd_warshall32 (3 : Nat) [3, -1, 4, 1, -5, 9, 2, 6, -5] = some out ∧
      out.length = 3 * 3 :=
  floyd_warshall_index_safe 3 (by decide) [3, -1, 4, 1, -5, 9, 2, 6, -5] (by decide)

theorem entry_replicate {n L : Nat} (hL : L = n * n) {i j : Nat} (hi : i < n) (hj : j < n) :
    entry n (List.replicate L (0 : Int)) i j = some 0 := by
  unfold entry
  rw [List.getElem?_replicate, if_pos (by rw [hL]; exact idx_lt hi hj)]

/-- C20, counterexample: the claim fails for `n = 46341`. The all-zero buffer is a
valid input with off-diagonal entries at most `W = 0` and `2*(n-1)*W <= 2^31 - 1`; the
run with unbounded integers returns a buffer, but the run on 32-bit `int`s does not
return one, because the index `k*n+j` overflows. -/
theorem floyd_warshall_overflow_large_n :
    (List.replicate (46341 * 46341) (0 : Int)).length = 46341 * 46341 ∧
    (∀ i, i < 46341 → ∀ j, j < 46341 →
      entry 46341 (List.replicate (46341 * 46341) 0) i j
        = entry 46341 (List.replicate (46341 * 46341) 0) j i) ∧
    (∀ x ∈ List.replicate (46341 * 46341) (0 : Int), 0 ≤ x) ∧
    (∀ i, i < 46341 → ∀ j, j < 46341 → i ≠ j →
      ∀ v ∈ entry 46341 (List.replicate (46341 * 46341) 0) i j, v ≤ 0) ∧
    2 * (((46341 : Nat) : Int) - 1) * 0 ≤ 2 ^ 31 - 1 ∧
    graphs_floyd_warshall32 (46341 : Nat) (List.replicate (46341 * 46341) 0) = none ∧
    ∃ out, graphs_floyd_warshall (46341 : Nat) (List.replicate (46341 * 46341) 0)
      = some out := by
  have hlen : (List.replicate (46341 * 46341) (0 : Int)).length = 46341 * 46341 :=
    List.length_replicate _ _
  refine ⟨hlen, ?_, ?_, ?_, by norm_num, gfw32_zero_46341, ?_⟩
  · intro i hi j hj
    rw [entry_replicate rfl hi hj, entry_replicate rfl hj hi]
  · intro x hx
    rw [List.eq_of_mem_replicate hx]
  · intro i hi j hj _ v hv
    rw [entry_replicate rfl hi hj] at hv
    have : (0 : Int) = v := Option.some.inj hv
    omega
  · obtain ⟨out, h1, -⟩ := gfw_rep (fun a b => a + b) 46341
      (show Rep 46341 (List.replicate (46341 * 46341) 0) (view 46341 _) from ⟨hlen, rfl⟩)
    exact ⟨out, h1⟩

/-- C20, amended: for `1 <= n <= 46340` (so that the index arithmetic fits 32 bits) and
a valid input whose off-diagonal entries are at most `W`, with `2*(n-1)*W <= 2^31 - 1`:
on entry to every iteration `(k, j, i)` that the loops run, if `d_ik > 0` and
`d_kj > 0` (so that line 34 computes the sum) then `d_ik + d_kj <= 2*(n-1)*W`; and the
run on 32-bit `int`s returns the same buffer as the run with unbounded integers. -/
theorem floyd_warshall_no_overflow (n : Nat) (_hn : 1 ≤ n) (hn46 : n ≤ 46340)
    (dm : List Int) (hlen : dm.length = n * n)
    (hsym : ∀ i, i < n → ∀ j, j < n → entry n dm i j = entry n dm j i)
    (hnn : ∀ x ∈ dm, 0 ≤ x) (W : Int)
    (hW : ∀ i, i < n → ∀ j, j < n → i ≠ j → ∀ v ∈ entry n dm i j, v ≤ W)
    (hB : 2 * ((n : Int) - 1) * W ≤ 2 ^ 31 - 1) :
    (∀ k, k < n → ∀ j, j < n → ∀ i, i < j → i ≠ k → j ≠ k →
      ∃ s d_ik d_kj, state_before (fun a b => a + b) n k j i dm = some s ∧
        entry n s i k = some d_ik ∧ entry n s k j = some d_kj ∧
        (0 < d_ik → 0 < d_kj → d_ik + d_kj ≤ 2 * ((n : Int) - 1) * W)) ∧
    ∃ out, graphs_floyd_warshall32 n dm = some out ∧ graphs_floyd_warshall n dm = some out := by
  have hrep : Rep n dm (view n dm) := ⟨hlen, rfl⟩
  have hs := view_symm hlen (fun i j hi hj => hsym i hi j hj)
  have hn0 := view_nonneg hlen hnn
  have hWv : ∀ x y, x < n → y < n → x ≠ y → view n dm x y ≤ W :=
    fun x y hx hy hxy => hW x hx y hy hxy _ (entry_eq_view hlen hx hy)
  constructor
  · intro k hk j hj i hij hik hjk
    have hi : i < n := by omega
    obtain ⟨s, hrun, hr⟩ := state_before_sim (fun a b => a + b) hk hj (Nat.le_of_lt hij) hjk hrep
    have hinv := fwInv_iter (n := n) hs hn0 k (Nat.le_of_lt hk)
    refine ⟨s, _, _, hrun, entry_of_rep hr hi hk, entry_of_rep hr hk hj, ?_⟩
    rw [innerSpec_col _ k j i hjk, innerSpec_row _ k j i hjk, passSpec_col, passSpec_row]
    intro h1 h2
    have b1 := fwInv_bound hinv hWv hi hk hik h1
    have b2 := fwInv_bound hinv hWv hk hj (Ne.symm hjk) h2
    have e : 2 * ((n : Int) - 1) * W = ((n : Int) - 1) * W + ((n : Int) - 1) * W := by ring
    rw [e]
    omega
  · obtain ⟨out, h1, h2⟩ := gfw_rep (fun a b => a + b) n hrep
    obtain ⟨out32, h3, h4⟩ := gfw32_rep hn46 hrep
    have heq : fwM (fun a b => wrap32 (a + b)) n (view n dm)
        = fwM (fun a b => a + b) n (view n dm) :=
      iter_pass32 hs hn0 hWv hB n (Nat.le_refl n)
    rw [heq] at h4
    refine ⟨out, ?_, h1⟩
    rw [rep_unique h2 h4]
    exact h3

/-- C20, witness: the 4-node example with `W = 10`. -/
theorem floyd_warshall_no_overflow_witness :
    (∀ k, k < 4 → ∀ j, j < 4 → ∀ i, i < j → i ≠ k → j ≠ k →
      ∃ s d_ik d_kj, state_before (fun a b => a + b) 4 k j i
          [0, 2, 0, 10, 2, 0, 2, 0, 0, 2, 0, 2, 10, 0, 2, 0] = some s ∧
        entry 4 s i k = some d_ik ∧ entry 4 s k j = some d_kj ∧
        (0 < d_ik → 0 < d_kj → d_ik + d_kj ≤ 2 * (((4 : Nat) : Int) - 1) * 10)) ∧
    ∃ out, graphs_floyd_warshall32 (4 : Nat)
        [0, 2, 0, 10, 2, 0, 2, 0, 0, 2, 0, 2, 10, 0, 2, 0] = some out ∧
      graphs_floyd_warshall (4 : Nat) [0, 2, 0, 10, 2, 0, 2, 0, 0, 2, 0, 2, 10, 0, 2, 0]
        = some out :=
  floyd_warshall_no_overflow 4 (by decide) (by decide)
    [0, 2, 0, 10, 2, 0, 2, 0, 0, 2, 0, 2, 10, 0, 2, 0]
    (by decide) (by decide) (by decide) 10 (by decide) (by norm_num)

/-! ## The triangle property as the spec states it -/

/-- C6, counterexample: the claim fails in two ways. (1) On the valid input with the
single edge 0 - 1 of weight 1 and zero diagonal, both with unbounded integers and on
32-bit `int`s, the output has `(0,1) > 0` and `(1,0) > 0` but `(0,0) = 0`, so the
property fails for `i = j = 0`, `k = 1`. (2) On 32-bit `int`s, on the valid input with
the edges `(0,1) = 2147483647` and `(1,2) = 1`, the output has `(0,1) > 0` and
`(1,2) > 0` but `(0,2) = -2147483648`: the sum has wrapped around. -/
theorem floyd_warshall_triangle_counterexample :
    ((∀ i, i < 2 → ∀ j, j < 2 → entry 2 [0, 1, 1, 0] i j = entry 2 [0, 1, 1, 0] j i) ∧
      (∀ x ∈ [0, 1, 1, (0 : Int)], 0 ≤ x) ∧
      (∀ i, i < 2 → entry 2 [0, 1, 1, 0] i i = some 0) ∧
      ∃ out, graphs_floyd_warshall (2 : Nat) [0, 1, 1, 0] = some out ∧
        graphs_floyd_warshall32 (2 : Nat) [0, 1, 1, 0] = some out ∧
        ¬ (∀ i, i < 2 → ∀ j, j < 2 → ∀ k, k < 2 → ∀ a b c,
            entry 2 out i k = some a → entry 2 out k j = some b → entry 2 out i j = some c →
            0 < a → 0 < b → 0 < c ∧ c ≤ a + b)) ∧
    ((∀ i, i < 3 → ∀ j, j < 3 →
        entry 3 [0, 2147483647, 0, 2147483647, 0, 1, 0, 1, 0] i j
          = entry 3 [0, 2147483647, 0, 2147483647, 0, 1, 0, 1, 0] j i) ∧
      (∀ x ∈ [0, 2147483647, 0, 2147483647, 0, 1, 0, 1, (0 : Int)], 0 ≤ x) ∧
      (∀ i, i < 3 → entry 3 [0, 2147483647, 0, 2147483647, 0, 1, 0, 1, 0] i i = some 0) ∧
      ∃ out, graphs_floyd_warshall32 (3 : Nat) [0, 2147483647, 0, 2147483647, 0, 1, 0, 1, 0]
          = some out ∧
        entry 3 out 0 1 = some 2147483647 ∧ entry 3 out 1 2 = some 1 ∧
        entry 3 out 0 2 = some (-2147483648) ∧
        ¬ (∀ i, i < 3 → ∀ j, j < 3 → ∀ k, k < 3 → ∀ a b c,
            entry 3 out i k = some a → entry 3 out k j = some b → entry 3 out i j = some c →
            0 < a → 0 < b → 0 < c ∧ c ≤ a + b)) := by
  refine ⟨⟨by decide, by decide, by decide, [0, 1, 1, 0], by decide, by decide, ?_⟩,
    ⟨by decide, by decide, by decide,
      [0, 2147483647, -2147483648, 2147483647, 0, 1, -2147483648, 1, 0],
      by decide, by decide, by decide, by decide, ?_⟩⟩
  · intro h
    have := (h 0 (by decide) 0 (by decide) 1 (by decide) 1 1 0 rfl rfl rfl (by decide)
      (by decide)).1
    exact absurd this (by decide)
  · intro h
    have := (h 0 (by decide) 2 (by decide) 1 (by decide) 2147483647 1 (-2147483648)
      (by decide) (by decide) (by decide) (by decide) (by decide)).1
    exact absurd this (by decide)

/-- C6, amended: for a valid input with zero diagonal, with the integers taken as
unbounded, and for all `i`, `j`, `k`: if the output entries `(i,k)` and `(k,j)` are
positive then the output entry `(i,j)` is at most their sum, and it is positive
whenever `i ≠ j`. -/
theorem floyd_warshall_triangle (n : Nat) (dm : List Int) (hlen : dm.length = n * n)
    (hsym : ∀ i, i < n → ∀ j, j < n → entry n dm i j = entry n dm j i)
    (hnn : ∀ x ∈ dm, 0 ≤ x) (hdiag : ∀ i, i < n → entry n dm i i = some 0) :
    ∃ out, graphs_floyd_warshall n dm = some out ∧
      ∀ i, i < n → ∀ j, j < n → ∀ k, k < n → ∀ a b c,
        entry n out i k = some a → entry n out k j = some b → entry n out i j = some c →
        0 < a → 0 < b → (i ≠ j → 0 < c) ∧ c ≤ a + b := by
  obtain ⟨out, hrun, hrep⟩ := gfw_rep (fun a b => a + b) n
    (show Rep n dm (view n dm) from ⟨hlen, rfl⟩)
  have hinv := fwInv_fwM (n := n) (view_symm hlen (fun i j hi hj => hsym i hi j hj))
    (view_nonneg hlen hnn)
  refine ⟨out, hrun, ?_⟩
  intro i hi j hj k hk a b c ha hb hc hpa hpb
  rw [entry_of_rep hrep hi hk] at ha
  rw [entry_of_rep hrep hk hj] at hb
  rw [entry_of_rep hrep hi hj] at hc
  have ea := Option.some.inj ha
  have eb := Option.some.inj hb
  have ec := Option.some.inj hc
  by_cases hij : i = j
  · subst hij
    have h0 := hdiag i hi
    rw [entry_eq_view hlen hi hi] at h0
    have h1 : view n dm i i = 0 := Option.some.inj h0
    rw [fwM_diag, h1] at ec
    exact ⟨fun hne => absurd rfl hne, by omega⟩
  · by_cases hik : i = k
    · subst hik
      exact ⟨fun _ => by omega, by omega⟩
    · by_cases hkj : k = j
      · subst hkj
        exact ⟨fun _ => by omega, by omega⟩
      · have := fwInv_triangle hinv hi hj hk hij hik hkj (by omega) (by omega)
        exact ⟨fun _ => by omega, by omega⟩

/-- C6, witness: the amended triangle property on the chain 0 - 1 - 2. -/
theorem floyd_warshall_triangle_witness :
    ∃ out, graphs_floyd_warshall (3 : Nat) [0, 1, 0, 1, 0, 1, 0, 1, 0] = some out ∧
      ∀ i, i < 3 → ∀ j, j < 3 → ∀ k, k < 3 → ∀ a b c,
        entry 3 out i k = some a → entry 3 out k j = some b → entry 3 out i j = some c →
        0 < a → 0 < b → (i ≠ j → 0 < c) ∧ c ≤ a + b :=
  floyd_warshall_triangle 3 [0, 1, 0, 1, 0, 1, 0, 1, 0] (by decide) (by decide) (by decide)
    (by decide)

/-! ## The half-triangle pass against the unoptimised pass -/

end Molmod
